import Mathlib

/-!
A shallow embedding of the `altdeque` crate: a double-ended queue stored as
two opposite-growing stacks inside one contiguous buffer (`src/lib.rs`,
`src/drain.rs`, `src/raw_vec.rs`), together with proofs about the embedded
operations.

The buffer is modelled as a `List α` whose length is the capacity; slots
outside the two live regions hold stale values that are never read by a
correct operation.  `usize` values become `Nat` (the source arithmetic never
relies on wrap-around in the paths modelled here: the code comments state the
subtractions cannot overflow under the struct invariant).  Raw-pointer
primitives become functional list operations: `ptr::copy` is `copyBuf`
(memmove semantics: the source region is read in full before writing),
`ptr::write` is `List.set`, `ptr::read` is `readBuf`, `ptr::swap` is
`swapTwo`.  The allocator is modelled as returning exactly the requested
capacity (the `RawVec` code itself records `cap = requested`).  Panics are
modelled with `Except`, carrying the state at the moment of the panic where a
claim is about that state.
-/

namespace AltDequeSpec

/-- Region of `l` starting at offset `s`, `n` slots long (clamped at the end
of the list): the source region of a `ptr::copy`. -/
def slice {α : Type} (l : List α) (s n : Nat) : List α := (l.drop s).take n

/-- Overwrite the region of `l` starting at offset `t` with `src`, leaving
everything else unchanged: the destination side of a `ptr::copy` /
`ptr::copy_nonoverlapping`. -/
def writeAt {α : Type} (l : List α) (t : Nat) (src : List α) : List α :=
  l.take t ++ src ++ l.drop (t + src.length)

/-- Functional semantics of `ptr::copy(self.buf_add(f), self.buf_add(t), n)`
(`AltDeque::copy` in the source): memmove, so the `n` source slots are read
from the original buffer and then written at `t`. -/
def copyBuf {α : Type} (l : List α) (f t n : Nat) : List α := writeAt l t (slice l f n)

/-- Functional semantics of `ptr::read(self.buf_add(i))`. -/
def readBuf {α : Type} [Inhabited α] (l : List α) (i : Nat) : α := l.getD i default

/-- Functional semantics of `ptr::swap(self.buf_add(i), self.buf_add(j))`. -/
def swapTwo {α : Type} [Inhabited α] (l : List α) (i j : Nat) : List α :=
  (l.set i (readBuf l j)).set j (readBuf l i)

/-- The loop `for i in left..right { ptr::swap(buf_add(i), buf_add(i + count)) }`
from the tight-capacity branch of `make_contiguous`. -/
def swap_range {α : Type} [Inhabited α] (l : List α) (left right count : Nat) : List α :=
  (List.range' left (right - left)).foldl (fun b i => swapTwo b i (i + count)) l

/-- The minimum nonzero capacity of the amortized growth policy
(`RawVec::MIN_NON_ZERO_CAP`).  The source picks 8, 4 or 1 from the element
byte size; we fix the moderate-size case (4), the one exercised by the
integer element types of the tests. -/
def MIN_NON_ZERO_CAP : Nat := 4

/-- New capacity computed by `RawVec::reserve_for_push(old_cap)` via
`grow_amortized(old_cap, 1)`: `max(MIN_NON_ZERO_CAP, max(cap * 2, cap + 1))`,
with the allocator modelled as returning exactly this amount. -/
def reserve_for_push_cap (cap : Nat) : Nat :=
  max MIN_NON_ZERO_CAP (max (cap * 2) (cap + 1))

/-- The panic message built by the free function `index_out_of_bounds`
in `src/lib.rs`. -/
def index_out_of_bounds (len index : Nat) : String :=
  "index out of bounds: the len is " ++ toString len ++
    " but the index is " ++ toString index

/-- The deque state: `head`/`tail` cursors plus the buffer, whose length is
the capacity.  `tail` is the offset of the first front-stack element, `head`
is one past the last back-stack element. -/
structure AltDeque (α : Type) where
  tail : Nat
  head : Nat
  buf : List α
deriving DecidableEq

namespace AltDeque

variable {α : Type}

/-- Capacity: the length of the single allocation. -/
def cap (d : AltDeque α) : Nat := d.buf.length

/-- Number of elements: `cap - tail + head` (`AltDeque::len`). -/
def len (d : AltDeque α) : Nat := d.cap - d.tail + d.head

/-- `AltDeque::is_empty`. -/
def is_empty (d : AltDeque α) : Bool := d.head == 0 && d.tail == d.cap

/-- `AltDeque::is_full`. -/
def is_full (d : AltDeque α) : Bool := d.tail == d.head

/-- The struct invariant stated in the source comments:
`0 <= head <= tail <= capacity`. -/
def Inv (d : AltDeque α) : Prop := d.head ≤ d.tail ∧ d.tail ≤ d.cap

instance (d : AltDeque α) : Decidable d.Inv :=
  decidable_of_iff (d.head ≤ d.tail ∧ d.tail ≤ d.cap) Iff.rfl

/-- The front stack: slots `[tail, cap)`, first component of `as_slices`. -/
def frontSlice (d : AltDeque α) : List α := d.buf.drop d.tail

/-- The back stack: slots `[0, head)`, second component of `as_slices`. -/
def backSlice (d : AltDeque α) : List α := d.buf.take d.head

/-- `AltDeque::as_slices`. -/
def as_slices (d : AltDeque α) : List α × List α := (d.frontSlice, d.backSlice)

/-- The logical element sequence, front to back. -/
def toList (d : AltDeque α) : List α := d.frontSlice ++ d.backSlice

/-- `AltDeque::with_capacity` (exact-allocator model: `RawVec` hands back
precisely the requested number of slots, filled with arbitrary junk). -/
def with_capacity [Inhabited α] (capacity : Nat) : AltDeque α :=
  { tail := capacity, head := 0, buf := List.replicate capacity default }

/-- `AltDeque::new`. -/
def new [Inhabited α] : AltDeque α := with_capacity 0

/-- `AltDeque::handle_capacity_increase(old_cap)`: after the buffer grew, move
the front stack up by the capacity delta so it ends at the new capacity. -/
def handle_capacity_increase (d : AltDeque α) (old_cap : Nat) : AltDeque α :=
  if old_cap = d.cap then d
  else
    let growth := d.cap - old_cap
    let front_len := old_cap - d.tail
    let new_tail := d.tail + growth
    { d with buf := copyBuf d.buf d.tail new_tail front_len, tail := new_tail }

/-- `AltDeque::grow`: double the buffer via `RawVec::reserve_for_push`, then
relocate the front stack. -/
def grow [Inhabited α] (d : AltDeque α) : AltDeque α :=
  let old_cap := d.cap
  let grown : AltDeque α :=
    { d with buf := d.buf ++ List.replicate (reserve_for_push_cap old_cap - old_cap) default }
  handle_capacity_increase grown old_cap

/-- `AltDeque::reserve(additional)`: amortized growth
(`RawVec::reserve` / `grow_amortized`), then front-stack relocation. -/
def reserve [Inhabited α] (d : AltDeque α) (additional : Nat) : AltDeque α :=
  let old_cap := d.cap
  let used_cap := d.len
  let grown : AltDeque α :=
    if additional > old_cap - used_cap then
      let new_cap := max MIN_NON_ZERO_CAP (max (old_cap * 2) (used_cap + additional))
      { d with buf := d.buf ++ List.replicate (new_cap - old_cap) default }
    else d
  handle_capacity_increase grown old_cap

/-- `AltDeque::push_back`: grow if full, write at `head`, increment `head`. -/
def push_back [Inhabited α] (d : AltDeque α) (value : α) : AltDeque α :=
  let d := if d.is_full then d.grow else d
  { d with buf := d.buf.set d.head value, head := d.head + 1 }

/-- `AltDeque::push_front`: grow if full, decrement `tail`, write there. -/
def push_front [Inhabited α] (d : AltDeque α) (value : α) : AltDeque α :=
  let d := if d.is_full then d.grow else d
  { d with tail := d.tail - 1, buf := d.buf.set (d.tail - 1) value }

/-- `AltDeque::pop_front`: pop the front stack if nonempty, otherwise flip the
back stack (minus the returned element) into the front stack. -/
def pop_front [Inhabited α] (d : AltDeque α) : Option α × AltDeque α :=
  if d.tail ≠ d.cap then
    (some (readBuf d.buf d.tail), { d with tail := d.tail + 1 })
  else if d.head ≠ 0 then
    let new_tail := d.cap - d.head + 1
    let buf1 := copyBuf d.buf 1 new_tail (d.head - 1)
    (some (readBuf buf1 0), { d with tail := new_tail, head := 0, buf := buf1 })
  else (none, d)

/-- `AltDeque::pop_back`: pop the back stack if nonempty, otherwise flip the
front stack (minus the returned element) into the back stack. -/
def pop_back [Inhabited α] (d : AltDeque α) : Option α × AltDeque α :=
  if d.head ≠ 0 then
    (some (readBuf d.buf (d.head - 1)), { d with head := d.head - 1 })
  else if d.tail ≠ d.cap then
    let new_head := d.cap - d.tail - 1
    let buf1 := copyBuf d.buf d.tail 0 new_head
    (some (readBuf buf1 (d.cap - 1)), { d with tail := d.cap, head := new_head, buf := buf1 })
  else (none, d)

/-- `AltDeque::get(index)`. -/
def get [Inhabited α] (d : AltDeque α) (index : Nat) : Option α :=
  let front_len := d.cap - d.tail
  if index < front_len + d.head then
    if index < front_len then some (readBuf d.buf (d.tail + index))
    else some (readBuf d.buf (index - front_len))
  else none

/-- The `Index` impl: `self.get(index).unwrap_or_else(|| index_out_of_bounds(len, index))`,
with the panic modelled as `Except.error` carrying the panic message. -/
def indexRead [Inhabited α] (d : AltDeque α) (index : Nat) : Except String α :=
  match d.get index with
  | some x => Except.ok x
  | none => Except.error (index_out_of_bounds d.len index)

/-- `AltDeque::insert(index, value)`.  The panic carries the state at the
moment of the panic (the deque may already have grown). -/
def insert [Inhabited α] (d : AltDeque α) (index : Nat) (value : α) :
    Except (String × AltDeque α) (AltDeque α) :=
  let d := if d.is_full then d.grow else d
  let front_len := d.cap - d.tail
  if index < front_len then
    let new_tail := d.tail - 1
    let buf1 := copyBuf d.buf d.tail new_tail (index + 1)
    Except.ok { d with tail := new_tail, buf := buf1.set (new_tail + index) value }
  else
    let index := index - front_len
    if index ≤ d.head then
      let buf1 := copyBuf d.buf index (index + 1) (d.head - index)
      Except.ok { d with head := d.head + 1, buf := buf1.set index value }
    else
      Except.error (index_out_of_bounds d.len (index + front_len), d)

/-- `AltDeque::remove(index)`. -/
def remove [Inhabited α] (d : AltDeque α) (index : Nat) : Option (α × AltDeque α) :=
  let front_len := d.cap - d.tail
  if index < front_len then
    let el := readBuf d.buf (d.tail + index)
    let new_tail := d.tail + 1
    some (el, { d with buf := copyBuf d.buf d.tail new_tail index, tail := new_tail })
  else
    let index := index - front_len
    if index < d.head then
      let el := readBuf d.buf index
      let new_head := d.head - 1
      some (el, { d with head := new_head, buf := copyBuf d.buf (index + 1) index (new_head - index) })
    else none

/-- `AltDeque::rotate_left(mid)`, with the out-of-range panic as `Except.error`. -/
def rotate_left [Inhabited α] (d : AltDeque α) (mid : Nat) : Except String (AltDeque α) :=
  let front_len := d.cap - d.tail
  if mid < front_len then
    Except.ok { d with buf := copyBuf d.buf d.tail d.head mid,
                       head := d.head + mid, tail := d.tail + mid }
  else
    let mid := mid - front_len
    if mid ≤ d.head then
      let count := d.head - mid
      Except.ok { d with head := mid, tail := d.tail - count,
                         buf := copyBuf d.buf mid (d.tail - count) count }
    else Except.error (index_out_of_bounds d.len (mid + front_len))

/-- `AltDeque::rotate_right(k)`, with the out-of-range panic as `Except.error`. -/
def rotate_right [Inhabited α] (d : AltDeque α) (k : Nat) : Except String (AltDeque α) :=
  if k ≤ d.head then
    Except.ok { d with head := d.head - k, tail := d.tail - k,
                       buf := copyBuf d.buf (d.head - k) (d.tail - k) k }
  else
    let front_len := d.cap - d.tail
    let k := k - d.head
    if k ≤ front_len then
      let count := front_len - k
      Except.ok { d with buf := copyBuf d.buf d.tail d.head count,
                         head := d.head + count, tail := d.tail + count }
    else Except.error (index_out_of_bounds d.len (k + d.head))

/-- `AltDeque::truncate(len)` along its non-panicking path (element
destructors are pure in the model, so the `DropGuard` always runs its final
relocation and no destructor panic can occur). -/
def truncate (d : AltDeque α) (len : Nat) : AltDeque α :=
  if len > d.len then d
  else
    let front_len := d.cap - d.tail
    if len > front_len then
      { d with head := len - front_len }
    else
      let new_tail := d.cap - len
      { d with head := 0, tail := new_tail, buf := copyBuf d.buf d.tail new_tail len }

/-- `AltDeque::shrink_to(min_capacity)`, with `RawVec::shrink_to_fit` modelled
as an exact reallocation (truncate the buffer to the target capacity). -/
def shrink_to (d : AltDeque α) (min_capacity : Nat) : AltDeque α :=
  if min_capacity ≥ d.cap then d
  else
    let target_cap := max min_capacity d.len
    let front_len := d.cap - d.tail
    let new_tail := target_cap - front_len
    let buf1 := (copyBuf d.buf d.tail new_tail front_len).take target_cap
    let d1 : AltDeque α := { d with tail := new_tail, buf := buf1 }
    if target_cap < d1.cap then
      let new_tail2 := d1.cap - front_len
      { d1 with tail := new_tail2, buf := copyBuf d1.buf d1.tail new_tail2 front_len }
    else d1

/-- The `loop { .. }` of the tight-capacity branch of `make_contiguous`.  The
`fuel` argument only bounds the number of iterations so that the recursion is
structural (and hence kernel-reducible); every iteration of the source loop
strictly decreases `left + right + count`, so the fuel passed by
`make_contiguous` (which exceeds that measure) never runs out on the states
the source reaches. -/
def jug_loop [Inhabited α] : Nat → List α → Nat → Nat → Nat → Nat → List α
  | 0, buf, _, _, _, _ => buf
  | fuel + 1, buf, count, left, right, free =>
    let b := swap_range buf left right count
    if left ≠ 0 then
      jug_loop fuel b count (left - count) (right - count) free
    else if right < count then
      if right ≥ count - free then
        copyBuf b 0 free (right - left)
      else
        jug_loop fuel b (count - right) left right free
    else b

/-- `AltDeque::make_contiguous`, returning the final state together with the
returned slice (the first component of `as_mut_slices` at exit). -/
def make_contiguous [Inhabited α] (d : AltDeque α) : AltDeque α × List α :=
  if d.head = 0 then (d, d.frontSlice)
  else
    let front_len := d.cap - d.tail
    let free := d.tail - d.head
    let buf1 :=
      if front_len = 0 then
        copyBuf d.buf 0 free d.head
      else if free ≥ d.head then
        let b := copyBuf d.buf d.tail free front_len
        copyBuf b 0 (d.cap - d.head) d.head
      else if free ≥ front_len then
        let b := copyBuf d.buf 0 front_len d.head
        let b := copyBuf b d.tail 0 front_len
        copyBuf b 0 free (front_len + d.head)
      else
        let count := front_len + free
        jug_loop (d.head + d.head + count + 1) d.buf count (d.head - count) d.head free
    let d1 : AltDeque α := { d with head := 0, tail := free, buf := buf1 }
    (d1, d1.frontSlice)

end AltDeque

/-- The free function `simplify_range` for a plain `start..stop` range
(`Bound::Included(start)`, `Bound::Excluded(stop)`): panics first when the end
exceeds the length, then when the start exceeds the end. -/
def simplify_range (start stop len : Nat) : Except String (Nat × Nat) :=
  if stop ≤ len then
    if start ≤ stop then Except.ok (start, stop)
    else
      Except.error ("range start Included(" ++ toString start ++
        ") should be <= range end Excluded(" ++ toString stop ++ ")")
  else
    Except.error ("range end Excluded(" ++ toString stop ++
      ") should be <= length " ++ toString len)

/-- The `Drain` iterator state (`src/drain.rs`): the borrowed deque (already
set to the provisional fully-consumed state), the captured pre-drain cursors,
the original range, and the two consumption cursors. -/
structure Drain (α : Type) where
  inner : AltDeque α
  old_head : Nat
  old_tail : Nat
  range_start : Nat
  range_end : Nat
  start : Nat
  stop : Nat
deriving DecidableEq

namespace Drain

variable {α : Type}

/-- `AltDeque::drain(range)`: simplify the range (panicking before any
mutation, so the error carries the untouched deque), then park the cursors at
the provisional empty state and build the iterator. -/
def make (d : AltDeque α) (start stop : Nat) : Except (String × AltDeque α) (Drain α) :=
  match simplify_range start stop d.len with
  | Except.error m => Except.error (m, d)
  | Except.ok (s, e) =>
    Except.ok { inner := { d with head := 0, tail := d.cap },
                old_head := d.head, old_tail := d.tail,
                range_start := s, range_end := e, start := s, stop := e }

/-- `Iterator::next` for `Drain`. -/
def next [Inhabited α] (st : Drain α) : Option α × Drain α :=
  if st.start < st.stop then
    let front_len := st.inner.cap - st.old_tail
    let s := st.start
    let st1 := { st with start := st.start + 1 }
    if s < front_len then (some (readBuf st.inner.buf (s + st.old_tail)), st1)
    else (some (readBuf st.inner.buf (s - front_len)), st1)
  else (none, st)

/-- `DoubleEndedIterator::next_back` for `Drain`. -/
def next_back [Inhabited α] (st : Drain α) : Option α × Drain α :=
  if st.start < st.stop then
    let front_len := st.inner.cap - st.old_tail
    let e := st.stop - 1
    let st1 := { st with stop := e }
    if e < front_len then (some (readBuf st.inner.buf (e + st.old_tail)), st1)
    else (some (readBuf st.inner.buf (e - front_len)), st1)
  else (none, st)

/-- `Drop for Drain`: drain the unconsumed remainder (which only advances the
cursor, element destructors being pure in the model), then compact the buffer
and restore the deque cursors. -/
def drop [Inhabited α] (st : Drain α) : AltDeque α :=
  let st := { st with start := st.stop }
  let inner := st.inner
  let front_len := inner.cap - st.old_tail
  let rlen := st.range_end - st.range_start
  if st.range_start < front_len then
    if st.range_end ≤ front_len then
      let new_tail := inner.cap - rlen
      { inner with buf := copyBuf inner.buf st.old_tail new_tail st.range_start,
                   tail := new_tail }
    else
      let new_head := st.old_head - (st.range_end - front_len)
      let new_tail := inner.cap - st.range_start
      let b1 := copyBuf inner.buf st.old_tail new_tail st.range_start
      let b2 := copyBuf b1 (st.range_end - front_len) 0 new_head
      { inner with buf := b2, head := new_head, tail := new_tail }
  else
    let e := st.range_end - front_len
    let s := st.range_start - front_len
    { inner with buf := copyBuf inner.buf e s (st.old_head - e),
                 head := st.old_head - rlen }

/-- Driver: call `next` up to `n` times, collecting the yielded elements in
order (mirrors `Iterator::collect` over an exact-size window). -/
def takeN [Inhabited α] : Nat → Drain α → List α × Drain α
  | 0, st => ([], st)
  | n + 1, st =>
    match next st with
    | (none, st1) => ([], st1)
    | (some x, st1) =>
      let r := takeN n st1
      (x :: r.1, r.2)

end Drain

/-- Driver mirroring the test pattern `deque.drain(s..e).collect()` followed
by the iterator going out of scope: full forward consumption, then `drop`.
Returns the yielded elements and the final deque (unchanged on a range panic). -/
def drain_run {α : Type} [Inhabited α] (d : AltDeque α) (start stop : Nat) :
    List α × AltDeque α :=
  match Drain.make d start stop with
  | Except.error (_, d1) => ([], d1)
  | Except.ok st =>
    let r := Drain.takeN (st.stop - st.start) st
    (r.1, Drain.drop r.2)

/-- `AltDeque::range(start..stop)`, returning the visited elements as a list
(the source returns a chained slice iterator; faults before reading). -/
def range_iter {α : Type} (d : AltDeque α) (start stop : Nat) : Except String (List α) :=
  match simplify_range start stop d.len with
  | Except.error m => Except.error m
  | Except.ok (s, e) =>
    let front := d.frontSlice
    let back := d.backSlice
    let front_len := front.length
    if s ≥ front_len then
      Except.ok ((back.drop (s - front_len)).take (e - s))
    else if e ≤ front_len then
      Except.ok ((front.drop s).take (e - s))
    else
      Except.ok (front.drop s ++ back.take (e - front_len))

/-- A plain growable array (`Vec`): its elements plus the capacity of its
allocation. -/
structure Vec (α : Type) where
  elems : List α
  cap : Nat
deriving DecidableEq

/-- `From<Vec<T>> for AltDeque<T>`: reuse the allocation, put every element in
the back stack (`head = len`, `tail = capacity`). -/
def fromVec {α : Type} [Inhabited α] (v : Vec α) : AltDeque α :=
  { buf := v.elems ++ List.replicate (v.cap - v.elems.length) default,
    head := v.elems.length, tail := v.cap }

/-- `From<AltDeque<T>> for Vec<T>`: if the front stack is nonempty, make the
deque contiguous and slide the run to offset 0; then reuse the allocation. -/
def toVec {α : Type} [Inhabited α] (d : AltDeque α) : Vec α :=
  let d :=
    if d.tail ≠ d.cap then
      let d1 := (AltDeque.make_contiguous d).1
      { d1 with buf := copyBuf d1.buf d1.tail 0 (d1.cap - d1.tail) }
    else d
  { elems := d.buf.take d.len, cap := d.cap }

/-- `From<[T; N]> for AltDeque<T>`: allocate exactly `N` slots and copy the
array into the front stack. -/
def fromArray {α : Type} [Inhabited α] (l : List α) : AltDeque α :=
  let d : AltDeque α := AltDeque.with_capacity l.length
  let t := d.cap - l.length
  { d with tail := t, buf := writeAt d.buf t l }

/-- `From<([T; N], [T; M])> for AltDeque<T>`: the first array becomes the
front stack, the second the back stack. -/
def fromPair {α : Type} [Inhabited α] (front back : List α) : AltDeque α :=
  let d : AltDeque α := AltDeque.with_capacity (front.length + back.length)
  let t := d.cap - front.length
  let b1 := writeAt d.buf t front
  let b2 := writeAt b1 0 back
  { d with tail := t, head := back.length, buf := b2 }

/-- One step of the operation alphabet for the push/pop refinement claim. -/
inductive DequeOp (α : Type) where
  | pushBack (v : α)
  | pushFront (v : α)
  | popBack
  | popFront
deriving DecidableEq

/-- Run a sequence of operations against the embedded deque, recording the
result of every pop call (including the `none` answers on an empty deque). -/
def runDeque {α : Type} [Inhabited α] : AltDeque α → List (DequeOp α) → List (Option α)
  | _, [] => []
  | d, op :: ops =>
    match op with
    | DequeOp.pushBack v => runDeque (d.push_back v) ops
    | DequeOp.pushFront v => runDeque (d.push_front v) ops
    | DequeOp.popBack =>
      let r := d.pop_back
      r.1 :: runDeque r.2 ops
    | DequeOp.popFront =>
      let r := d.pop_front
      r.1 :: runDeque r.2 ops

/-- Run the same sequence against the reference double-ended queue: a plain
list holding the logical sequence front to back. -/
def runRef {α : Type} : List α → List (DequeOp α) → List (Option α)
  | _, [] => []
  | s, op :: ops =>
    match op with
    | DequeOp.pushBack v => runRef (s ++ [v]) ops
    | DequeOp.pushFront v => runRef (v :: s) ops
    | DequeOp.popBack => s.getLast? :: runRef s.dropLast ops
    | DequeOp.popFront => s.head? :: runRef s.tail ops

/-- The property claimed by C3, gathered for one state `d` and one batch of
operation arguments: every modelled operation preserves the struct invariant,
the length/emptiness/fullness characterisations hold, and a capacity increase
(`grow`) re-establishes the invariant with the front stack again ending at
the new capacity. -/
def C3Prop {α : Type} [Inhabited α] (d : AltDeque α) (v : α) (n m i k : Nat) : Prop :=
  (AltDeque.new : AltDeque α).Inv ∧ (AltDeque.with_capacity n : AltDeque α).Inv ∧
  (d.push_back v).Inv ∧ (d.push_front v).Inv ∧ d.pop_front.2.Inv ∧ d.pop_back.2.Inv ∧
  (d.reserve n).Inv ∧ (d.truncate n).Inv ∧ (d.shrink_to m).Inv ∧
  d.make_contiguous.1.Inv ∧ d.grow.Inv ∧
  (∀ r, d.insert i v = Except.ok r → r.Inv) ∧
  (∀ s r, d.insert i v = Except.error (s, r) → r.Inv) ∧
  (∀ x r, d.remove i = some (x, r) → r.Inv) ∧
  (∀ r, d.rotate_left k = Except.ok r → r.Inv) ∧
  (∀ r, d.rotate_right k = Except.ok r → r.Inv) ∧
  (∀ s e st, Drain.make d s e = Except.ok st → st.inner.Inv ∧ (Drain.drop st).Inv) ∧
  d.len = d.cap - d.tail + d.head ∧
  (d.is_empty = true ↔ d.head = 0 ∧ d.tail = d.cap) ∧
  (d.is_full = true ↔ d.tail = d.head) ∧
  d.grow.cap - d.grow.tail = d.cap - d.tail ∧ d.grow.frontSlice = d.frontSlice

/-- The property claimed by C5 for one state `d` and one rotation amount `k`:
`rotate_left k` then `rotate_right k` restores the sequence when `k ≤ len`,
rotating by exactly `len` is a no-op on the sequence, and rotating by more
than `len` faults with the out-of-bounds message. -/
def C5Prop {α : Type} [Inhabited α] (d : AltDeque α) (k : Nat) : Prop :=
  (k ≤ d.len → ∃ r1 r2, d.rotate_left k = Except.ok r1 ∧ r1.rotate_right k = Except.ok r2 ∧
    r1.Inv ∧ r2.Inv ∧ r2.toList = d.toList) ∧
  (∃ r, d.rotate_left d.len = Except.ok r ∧ r.toList = d.toList) ∧
  (∃ r, d.rotate_right d.len = Except.ok r ∧ r.toList = d.toList) ∧
  (d.len < k → d.rotate_left k = Except.error (index_out_of_bounds d.len k) ∧
    d.rotate_right k = Except.error (index_out_of_bounds d.len k))

/-- The property claimed by C6 for one state `d` and one index `i`: `get`
returns the element at logical position `i` (through the claimed physical
offsets), `none` out of bounds, and the `Index` impl faults with the exact
out-of-bounds message. -/
def C6Prop {α : Type} [Inhabited α] (d : AltDeque α) (i : Nat) : Prop :=
  d.get i = d.toList[i]? ∧
  (i < d.cap - d.tail → d.get i = some (readBuf d.buf (d.tail + i))) ∧
  (i < d.len → d.cap - d.tail ≤ i →
    i - (d.cap - d.tail) < d.head ∧ d.get i = some (readBuf d.buf (i - (d.cap - d.tail)))) ∧
  (d.len ≤ i → d.get i = none) ∧
  (d.len ≤ i → d.indexRead i = Except.error ("index out of bounds: the len is " ++
    toString d.len ++ " but the index is " ++ toString i))

/-- The property claimed by C7 for one state `d`: an out-of-bounds `insert`
and an invalid `drain`/`range` range fault with the logical contents
untouched. -/
def C7Prop {α : Type} [Inhabited α] (d : AltDeque α) (i : Nat) (v : α) (s e : Nat) : Prop :=
  (d.len < i → ∃ r, d.insert i v = Except.error (index_out_of_bounds d.len i, r) ∧
    r.toList = d.toList ∧ r.Inv) ∧
  (d.len < e ∨ e < s →
    (∃ m, Drain.make d s e = Except.error (m, d)) ∧
    (∃ m, range_iter d s e = Except.error m))

/-- The amended property of C8 for one state `d` and one bound `m`:
`capacity ≥ len` always holds, and `shrink_to m` reaches `max m len` exactly
when `m < capacity`, while `m ≥ capacity` is a no-op (the original claim's
unconditional `capacity ≥ max(m, len)` fails there). -/
def C8Prop {α : Type} (d : AltDeque α) (m : Nat) : Prop :=
  d.len ≤ d.cap ∧ (d.shrink_to m).Inv ∧
  (m < d.cap → (d.shrink_to m).cap = max m d.len) ∧
  (d.cap ≤ m → d.shrink_to m = d)

/-- The property claimed by C9 for one vector `v`: the `Vec → AltDeque → Vec`
round trip is the identity, both conversions keep the allocation, and the
converted deque is already a single contiguous run at offset 0 (empty front
stack), so `toVec` takes its no-copy branch. -/
def C9Prop {α : Type} [Inhabited α] (v : Vec α) : Prop :=
  toVec (fromVec v) = v ∧ (fromVec v).cap = v.cap ∧ (fromVec v).tail = (fromVec v).cap ∧
  (fromVec v).backSlice = v.elems ∧ (fromVec v).frontSlice = []

/-- The property claimed by C10 for one vector `v`: `fromVec` parks every
element in the back stack (`head = len`, `tail = capacity`, empty first
`as_slices` component), and the first `pop_front` on a non-empty conversion
takes the stack-flip branch (`head` becomes 0 and `tail` moves to
`capacity - len + 1`) while still popping the right element. -/
def C10Prop {α : Type} [Inhabited α] (v : Vec α) : Prop :=
  (fromVec v).as_slices = ([], v.elems) ∧
  (fromVec v).head = v.elems.length ∧ (fromVec v).tail = v.cap ∧
  (v.elems ≠ [] →
    (fromVec v).pop_front.1 = v.elems.head? ∧
    (fromVec v).pop_front.2.head = 0 ∧
    (fromVec v).pop_front.2.tail = (fromVec v).cap - v.elems.length + 1 ∧
    (fromVec v).pop_front.2.toList = v.elems.tail)

end AltDequeSpec

namespace AltDequeSpec

theorem length_slice {α : Type} (l : List α) (s n : Nat) :
    (slice l s n).length = min n (l.length - s) := by
  simp [slice]

theorem length_slice_of_le {α : Type} {l : List α} {s n : Nat} (h : s + n ≤ l.length) :
    (slice l s n).length = n := by
  simp [slice]; omega

theorem slice_block {α : Type} (A B C : List α) {s n : Nat}
    (hA : A.length = s) (hB : B.length = n) : slice (A ++ B ++ C) s n = B := by
  rw [List.append_assoc, slice, List.drop_left' hA, List.take_left' hB]

theorem writeAt_block {α : Type} (A B C src : List α) {t : Nat}
    (hA : A.length = t) (hB : B.length = src.length) :
    writeAt (A ++ B ++ C) t src = A ++ src ++ C := by
  have h1 : (A ++ B ++ C).take t = A := by
    rw [List.append_assoc]; exact List.take_left' hA
  have h2 : (A ++ B ++ C).drop (t + src.length) = C :=
    List.drop_left' (by simp [hA, hB])
  rw [writeAt, h1, h2]

theorem set_block {α : Type} (A : List α) (b : α) (C : List α) (v : α) {i : Nat}
    (h : A.length = i) : (A ++ b :: C).set i v = A ++ v :: C := by
  rw [List.set_append]
  simp [h]

theorem readBuf_block {α : Type} [Inhabited α] (A : List α) (b : α) (C : List α) {i : Nat}
    (h : A.length = i) : readBuf (A ++ b :: C) i = b := by
  rw [readBuf, List.getD_append_right _ _ _ _ (le_of_eq h)]
  simp [h]

theorem length_writeAt_of_le {α : Type} {l src : List α} {t : Nat}
    (h : t + src.length ≤ l.length) : (writeAt l t src).length = l.length := by
  simp [writeAt]; omega

theorem le_length_writeAt {α : Type} (l src : List α) (t : Nat) :
    l.length ≤ (writeAt l t src).length := by
  simp [writeAt]; omega

theorem length_copyBuf_of_le {α : Type} {l : List α} {f t n : Nat}
    (hf : f + n ≤ l.length) (ht : t + n ≤ l.length) :
    (copyBuf l f t n).length = l.length := by
  rw [copyBuf, length_writeAt_of_le]
  rw [length_slice_of_le hf]; omega

theorem le_length_copyBuf {α : Type} (l : List α) (f t n : Nat) :
    l.length ≤ (copyBuf l f t n).length := le_length_writeAt _ _ _

namespace AltDeque

variable {α : Type}

theorem exists_blocks (d : AltDeque α) (h : d.Inv) :
    ∃ B G F : List α, d.buf = B ++ G ++ F ∧ B = d.backSlice ∧ F = d.frontSlice ∧
      B.length = d.head ∧ G.length = d.tail - d.head ∧ F.length = d.cap - d.tail := by
  obtain ⟨h1, h2⟩ := h
  refine ⟨d.buf.take d.head, (d.buf.drop d.head).take (d.tail - d.head),
    d.buf.drop d.tail, ?_, rfl, rfl, ?_, ?_, ?_⟩
  · have e3 : (d.buf.drop d.head).drop (d.tail - d.head) = d.buf.drop d.tail := by
      rw [List.drop_drop]; congr 1; omega
    calc d.buf = d.buf.take d.head ++ d.buf.drop d.head :=
          (List.take_append_drop _ _).symm
      _ = d.buf.take d.head ++ ((d.buf.drop d.head).take (d.tail - d.head) ++
            (d.buf.drop d.head).drop (d.tail - d.head)) := by
          simp only [List.take_append_drop]
      _ = _ := by rw [e3, ← List.append_assoc]
  · simp [cap] at h2 ⊢; omega
  · simp [cap] at h2 ⊢; omega
  · simp [frontSlice, cap]

theorem toList_length (d : AltDeque α) (h : d.Inv) : d.toList.length = d.len := by
  obtain ⟨h1, h2⟩ := h
  simp [toList, frontSlice, backSlice, len, cap] at h2 ⊢
  omega

end AltDeque

end AltDequeSpec

namespace AltDequeSpec

namespace AltDeque

variable {α : Type}

theorem lt_reserve_for_push_cap (c : Nat) : c < reserve_for_push_cap c := by
  simp only [reserve_for_push_cap, MIN_NON_ZERO_CAP]
  omega

theorem handle_capacity_increase_spec (d : AltDeque α) (old_cap : Nat)
    (h1 : d.head ≤ d.tail) (h2 : d.tail ≤ old_cap) (h3 : old_cap ≤ d.cap) :
    (d.handle_capacity_increase old_cap).cap = d.cap ∧
    (d.handle_capacity_increase old_cap).head = d.head ∧
    (d.handle_capacity_increase old_cap).tail = d.tail + (d.cap - old_cap) ∧
    (d.handle_capacity_increase old_cap).backSlice = d.backSlice ∧
    (d.handle_capacity_increase old_cap).frontSlice = slice d.buf d.tail (old_cap - d.tail) := by
  have hlen : d.buf.length = d.cap := rfl
  by_cases hc : old_cap = d.cap
  · have he : d.handle_capacity_increase old_cap = d := by
      unfold handle_capacity_increase; rw [if_pos hc]
    rw [he]
    refine ⟨rfl, rfl, by omega, rfl, ?_⟩
    subst hc
    have hl : (d.buf.drop d.tail).length ≤ d.cap - d.tail := by
      rw [List.length_drop, hlen]
    simp only [frontSlice, slice]
    rw [List.take_of_length_le hl]
  · have hlt : old_cap < d.cap := lt_of_le_of_ne h3 hc
    have he : d.handle_capacity_increase old_cap =
        { d with buf := copyBuf d.buf d.tail (d.tail + (d.cap - old_cap)) (old_cap - d.tail),
                 tail := d.tail + (d.cap - old_cap) } := by
      unfold handle_capacity_increase; rw [if_neg hc]
    rw [he]
    have hS : (slice d.buf d.tail (old_cap - d.tail)).length = old_cap - d.tail :=
      length_slice_of_le (by omega)
    have hbuf : copyBuf d.buf d.tail (d.tail + (d.cap - old_cap)) (old_cap - d.tail) =
        d.buf.take (d.tail + (d.cap - old_cap)) ++ slice d.buf d.tail (old_cap - d.tail) := by
      have hdrop : d.buf.drop
          (d.tail + (d.cap - old_cap) + (slice d.buf d.tail (old_cap - d.tail)).length) = [] :=
        List.drop_of_length_le (by rw [hS]; omega)
      rw [copyBuf, writeAt, hdrop, List.append_nil]
    have htk : (d.buf.take (d.tail + (d.cap - old_cap))).length = d.tail + (d.cap - old_cap) := by
      simp; omega
    refine ⟨?_, rfl, rfl, ?_, ?_⟩
    · simp only [cap] at *
      rw [hbuf, List.length_append, htk, hS]; omega
    · simp only [backSlice]
      rw [hbuf, List.take_append_eq_append_take, htk]
      have h0 : d.head - (d.tail + (d.cap - old_cap)) = 0 := by omega
      rw [h0, List.take_zero, List.append_nil, List.take_take,
        Nat.min_eq_left (by omega : d.head ≤ d.tail + (d.cap - old_cap))]
    · simp only [frontSlice]
      rw [hbuf]
      exact List.drop_left' htk

theorem extend_then_handle_spec (d : AltDeque α) (R : List α) (G : AltDeque α)
    (hG : G = { d with buf := d.buf ++ R })
    (h1 : d.head ≤ d.tail) (h2 : d.tail ≤ d.cap) :
    (G.handle_capacity_increase d.cap).cap = d.cap + R.length ∧
    (G.handle_capacity_increase d.cap).head = d.head ∧
    (G.handle_capacity_increase d.cap).tail = d.tail + R.length ∧
    (G.handle_capacity_increase d.cap).backSlice = d.backSlice ∧
    (G.handle_capacity_increase d.cap).frontSlice = d.frontSlice := by
  subst hG
  have hlen : d.buf.length = d.cap := rfl
  have hGcap : ({ d with buf := d.buf ++ R } : AltDeque α).cap = d.cap + R.length := by
    simp [cap]
  obtain ⟨hc1, hc2, hc3, hc4, hc5⟩ :=
    handle_capacity_increase_spec { d with buf := d.buf ++ R } d.cap h1 h2
      (by rw [hGcap]; omega)
  rw [hGcap] at hc1 hc3
  refine ⟨hc1, hc2, by rw [hc3]; show d.tail + (d.cap + R.length - d.cap) = _; omega, ?_, ?_⟩
  · rw [hc4]
    simp only [backSlice]
    rw [List.take_append_eq_append_take]
    have h0 : d.head - d.buf.length = 0 := by omega
    rw [h0, List.take_zero, List.append_nil]
  · rw [hc5]
    show slice (d.buf ++ R) d.tail (d.cap - d.tail) = d.frontSlice
    simp only [slice, frontSlice]
    rw [List.drop_append_eq_append_drop]
    have h0 : d.tail - d.buf.length = 0 := by omega
    rw [h0, List.drop_zero, List.take_append_eq_append_take]
    have hfl : (d.buf.drop d.tail).length = d.cap - d.tail := by
      rw [List.length_drop, hlen]
    rw [List.take_of_length_le (le_of_eq hfl), hfl, Nat.sub_self, List.take_zero,
      List.append_nil]

theorem grow_spec [Inhabited α] (d : AltDeque α) (h : d.Inv) :
    d.grow.Inv ∧ d.grow.cap = reserve_for_push_cap d.cap ∧ d.grow.head = d.head ∧
    d.grow.tail = d.tail + (reserve_for_push_cap d.cap - d.cap) ∧
    d.grow.backSlice = d.backSlice ∧ d.grow.frontSlice = d.frontSlice ∧
    d.grow.is_full = false ∧ d.grow.toList = d.toList ∧ d.grow.len = d.len := by
  obtain ⟨h1, h2⟩ := h
  have hrc := lt_reserve_for_push_cap d.cap
  have hgrow_eq : d.grow = AltDeque.handle_capacity_increase
      { d with buf := d.buf ++ List.replicate (reserve_for_push_cap d.cap - d.cap) default }
      d.cap := rfl
  obtain ⟨e1, e2, e3, e4, e5⟩ := extend_then_handle_spec d
    (List.replicate (reserve_for_push_cap d.cap - d.cap) (default : α)) _ rfl h1 h2
  rw [List.length_replicate] at e1 e3
  rw [hgrow_eq]
  refine ⟨⟨?_, ?_⟩, by rw [e1]; omega, e2, e3, e4, e5, ?_, ?_, ?_⟩
  · rw [e2, e3]; omega
  · rw [e3, e1]; omega
  · simp only [is_full]
    rw [e2, e3]
    simp only [beq_eq_false_iff_ne, ne_eq]
    omega
  · simp only [toList]
    rw [e4, e5]
  · simp only [len]
    rw [e1, e2, e3]
    omega

theorem growIfFull_spec [Inhabited α] (d : AltDeque α) (h : d.Inv) :
    (if d.is_full then d.grow else d).Inv ∧
    (if d.is_full then d.grow else d).head < (if d.is_full then d.grow else d).tail ∧
    (if d.is_full then d.grow else d).toList = d.toList ∧
    (if d.is_full then d.grow else d).len = d.len := by
  by_cases hf : d.is_full = true
  · obtain ⟨hI, _, _, _, _, _, hful, hTo, hLen⟩ := grow_spec d h
    simp only [hf, if_true]
    refine ⟨hI, ?_, hTo, hLen⟩
    obtain ⟨hIa, hIb⟩ := hI
    simp only [is_full, beq_eq_false_iff_ne, ne_eq] at hful
    omega
  · have hb : d.is_full = false := by revert hf; cases d.is_full <;> simp
    have hif : (if d.is_full then d.grow else d) = d := by rw [hb]; simp
    rw [hif]
    refine ⟨h, ?_, rfl, rfl⟩
    simp only [is_full, beq_eq_false_iff_ne, ne_eq] at hb
    obtain ⟨h1, h2⟩ := h
    omega

theorem push_back_spec [Inhabited α] (d : AltDeque α) (v : α) (h : d.Inv) :
    (d.push_back v).Inv ∧ (d.push_back v).toList = d.toList ++ [v] ∧
    (d.push_back v).len = d.len + 1 := by
  obtain ⟨hI, hlt, hTo, hLen⟩ := growIfFull_spec d h
  have he : d.push_back v =
      { (if d.is_full then d.grow else d) with
          buf := (if d.is_full then d.grow else d).buf.set
            (if d.is_full then d.grow else d).head v,
          head := (if d.is_full then d.grow else d).head + 1 } := rfl
  revert hI hlt hTo hLen he
  generalize (if d.is_full then d.grow else d) = d1
  intro hI hlt hTo hLen he
  obtain ⟨B, G, F, hbuf, hB, hF, hBl, hGl, hFl⟩ := exists_blocks d1 hI
  obtain ⟨hI1, hI2⟩ := hI
  cases G with
  | nil => simp at hGl; omega
  | cons g G2 =>
    have hset : d1.buf.set d1.head v = (B ++ [v]) ++ (G2 ++ F) := by
      rw [hbuf]
      have : B ++ (g :: G2) ++ F = B ++ g :: (G2 ++ F) := by simp
      rw [this, set_block B g (G2 ++ F) v hBl]
      simp
    have hG2 : G2.length = d1.tail - d1.head - 1 := by
      simp at hGl; omega
    rw [he]
    have hcapr : ((B ++ [v]) ++ (G2 ++ F)).length = d1.cap := by
      simp only [List.length_append, List.length_cons, List.length_nil]
      omega
    have hback : (((B ++ [v]) ++ (G2 ++ F)).take (d1.head + 1)) = B ++ [v] :=
      List.take_left' (by simp; omega)
    have hfront : (((B ++ [v]) ++ (G2 ++ F)).drop d1.tail) = F := by
      have : (B ++ [v]) ++ (G2 ++ F) = ((B ++ [v]) ++ G2) ++ F := by simp
      rw [this]
      exact List.drop_left' (by simp; omega)
    refine ⟨⟨?_, ?_⟩, ?_, ?_⟩
    · show d1.head + 1 ≤ d1.tail; omega
    · show d1.tail ≤ ((d1.buf.set d1.head v)).length
      rw [hset, hcapr]; exact hI2
    · show (d1.buf.set d1.head v).drop d1.tail ++ (d1.buf.set d1.head v).take (d1.head + 1) =
        d.toList ++ [v]
      rw [hset, hback, hfront, ← hTo]
      show F ++ (B ++ [v]) = d1.toList ++ [v]
      have : d1.toList = F ++ B := by rw [toList, ← hB, ← hF]
      rw [this]
      simp
    · show (d1.buf.set d1.head v).length - d1.tail + (d1.head + 1) = d.len + 1
      rw [hset, hcapr, ← hLen]
      simp only [len]
      omega

theorem push_front_spec [Inhabited α] (d : AltDeque α) (v : α) (h : d.Inv) :
    (d.push_front v).Inv ∧ (d.push_front v).toList = v :: d.toList ∧
    (d.push_front v).len = d.len + 1 := by
  obtain ⟨hI, hlt, hTo, hLen⟩ := growIfFull_spec d h
  have he : d.push_front v =
      { (if d.is_full then d.grow else d) with
          tail := (if d.is_full then d.grow else d).tail - 1,
          buf := (if d.is_full then d.grow else d).buf.set
            ((if d.is_full then d.grow else d).tail - 1) v } := rfl
  revert hI hlt hTo hLen he
  generalize (if d.is_full then d.grow else d) = d1
  intro hI hlt hTo hLen he
  obtain ⟨B, G, F, hbuf, hB, hF, hBl, hGl, hFl⟩ := exists_blocks d1 hI
  obtain ⟨hI1, hI2⟩ := hI
  rcases List.eq_nil_or_concat G with hGnil | ⟨G2, g, hGc⟩
  · subst hGnil; simp at hGl; omega
  · subst hGc
    have hG2 : G2.length = d1.tail - d1.head - 1 := by
      simp at hGl; omega
    have hset : d1.buf.set (d1.tail - 1) v = (B ++ G2) ++ (v :: F) := by
      rw [hbuf, List.concat_eq_append]
      have h9 : B ++ (G2 ++ [g]) ++ F = (B ++ G2) ++ g :: F := by simp
      rw [h9, set_block (B ++ G2) g F v (by simp; omega)]
    rw [he]
    have hcapr : ((B ++ G2) ++ (v :: F)).length = d1.cap := by
      simp only [List.length_append, List.length_cons]
      omega
    have hback : (((B ++ G2) ++ (v :: F)).take d1.head) = B := by
      have : (B ++ G2) ++ (v :: F) = B ++ (G2 ++ (v :: F)) := by simp
      rw [this]
      exact List.take_left' hBl
    have hfront : (((B ++ G2) ++ (v :: F)).drop (d1.tail - 1)) = v :: F :=
      List.drop_left' (by simp; omega)
    refine ⟨⟨?_, ?_⟩, ?_, ?_⟩
    · show d1.head ≤ d1.tail - 1; omega
    · show d1.tail - 1 ≤ ((d1.buf.set (d1.tail - 1) v)).length
      rw [hset, hcapr]
      omega
    · show (d1.buf.set (d1.tail - 1) v).drop (d1.tail - 1) ++
        (d1.buf.set (d1.tail - 1) v).take d1.head = v :: d.toList
      rw [hset, hback, hfront, ← hTo]
      have : d1.toList = F ++ B := by rw [toList, ← hB, ← hF]
      rw [this]
      simp
    · show (d1.buf.set (d1.tail - 1) v).length - (d1.tail - 1) + d1.head = d.len + 1
      rw [hset, hcapr, ← hLen]
      simp only [len]
      omega

theorem pop_front_spec [Inhabited α] (d : AltDeque α) (h : d.Inv) :
    d.pop_front.2.Inv ∧ d.pop_front.1 = d.toList.head? ∧
    d.pop_front.2.toList = d.toList.tail ∧ d.pop_front.2.cap = d.cap := by
  obtain ⟨B, G, F, hbuf, hB, hF, hBl, hGl, hFl⟩ := exists_blocks d h
  obtain ⟨hI1, hI2⟩ := h
  have hTo : d.toList = F ++ B := by rw [toList, ← hB, ← hF]
  have hlen : d.buf.length = d.cap := rfl
  unfold pop_front
  split
  · rename_i hne
    have htlt : d.tail < d.cap := by omega
    cases F with
    | nil => exfalso; simp at hFl; omega
    | cons f F2 =>
      have hread : readBuf d.buf d.tail = f := by
        rw [hbuf]
        have h9 : B ++ G ++ f :: F2 = (B ++ G) ++ f :: F2 := by simp
        rw [h9, readBuf_block (B ++ G) f F2 (by simp; omega)]
      have hfr : d.buf.drop (d.tail + 1) = F2 := by
        rw [hbuf]
        have h9 : B ++ G ++ f :: F2 = ((B ++ G) ++ [f]) ++ F2 := by simp
        rw [h9]
        exact List.drop_left' (by simp; omega)
      have hbk : d.buf.take d.head = B := by
        rw [hbuf]
        have h9 : B ++ G ++ f :: F2 = B ++ (G ++ f :: F2) := by simp
        rw [h9]
        exact List.take_left' hBl
      refine ⟨⟨?_, ?_⟩, ?_, ?_, rfl⟩
      · show d.head ≤ d.tail + 1
        omega
      · show d.tail + 1 ≤ d.buf.length
        omega
      · show some (readBuf d.buf d.tail) = (d.toList).head?
        simp only [hread, hTo]
        simp
      · show d.buf.drop (d.tail + 1) ++ d.buf.take d.head = (d.toList).tail
        rw [hfr, hbk, hTo]
        simp
  · rename_i hne
    have hte : d.tail = d.cap := by omega
    have hFnil : F = [] := by
      apply List.eq_nil_of_length_eq_zero
      omega
    subst hFnil
    split
    · rename_i hh
      cases B with
      | nil => exfalso; simp at hBl; omega
      | cons b B2 =>
        have hhead : d.head = B2.length + 1 := by simp at hBl; omega
        have hbuf2 : d.buf = ([b] ++ B2) ++ G := by
          rw [hbuf]; simp
        have hslice : slice d.buf 1 (d.head - 1) = B2 := by
          have hA : ([b] : List α).length = 1 := rfl
          have hB2 : B2.length = d.head - 1 := by omega
          rw [hbuf2, slice_block [b] B2 G hA hB2]
        have hbuf1 : copyBuf d.buf 1 (d.cap - d.head + 1) (d.head - 1) =
            d.buf.take (d.cap - d.head + 1) ++ B2 := by
          rw [copyBuf, hslice, writeAt]
          have hdrop : d.buf.drop (d.cap - d.head + 1 + B2.length) = [] :=
            List.drop_of_length_le (by omega)
          rw [hdrop, List.append_nil]
        have htklen : (d.buf.take (d.cap - d.head + 1)).length = d.cap - d.head + 1 := by
          simp; omega
        refine ⟨⟨?_, ?_⟩, ?_, ?_, ?_⟩
        · show (0 : Nat) ≤ d.cap - d.head + 1
          omega
        · show d.cap - d.head + 1 ≤ (copyBuf d.buf 1 (d.cap - d.head + 1) (d.head - 1)).length
          rw [hbuf1, List.length_append, htklen]
          omega
        · show some (readBuf (copyBuf d.buf 1 (d.cap - d.head + 1) (d.head - 1)) 0) =
            (d.toList).head?
          rw [hbuf1, hTo]
          have h9 : d.buf.take (d.cap - d.head + 1) =
              b :: (B2 ++ G).take (d.cap - d.head) := by
            conv_lhs => rw [hbuf2]
            simp [List.take_succ_cons]
          rw [h9]
          simp [readBuf]
        · show (copyBuf d.buf 1 (d.cap - d.head + 1) (d.head - 1)).drop (d.cap - d.head + 1) ++
            (copyBuf d.buf 1 (d.cap - d.head + 1) (d.head - 1)).take 0 = (d.toList).tail
          rw [hbuf1, hTo, List.take_zero, List.append_nil, List.drop_left' htklen]
          simp
        · show (copyBuf d.buf 1 (d.cap - d.head + 1) (d.head - 1)).length = d.cap
          rw [hbuf1, List.length_append, htklen]
          omega
    · rename_i hh
      have hhead : d.head = 0 := by omega
      have hBnil : B = [] := by
        apply List.eq_nil_of_length_eq_zero
        omega
      subst hBnil
      rw [hTo]
      exact ⟨⟨hI1, hI2⟩, rfl, rfl, rfl⟩

theorem pop_back_spec [Inhabited α] (d : AltDeque α) (h : d.Inv) :
    d.pop_back.2.Inv ∧ d.pop_back.1 = d.toList.getLast? ∧
    d.pop_back.2.toList = d.toList.dropLast ∧ d.pop_back.2.cap = d.cap := by
  obtain ⟨B, G, F, hbuf, hB, hF, hBl, hGl, hFl⟩ := exists_blocks d h
  obtain ⟨hI1, hI2⟩ := h
  have hTo : d.toList = F ++ B := by rw [toList, ← hB, ← hF]
  have hlen : d.buf.length = d.cap := rfl
  unfold pop_back
  split
  · rename_i hh
    rcases List.eq_nil_or_concat B with hBnil | ⟨B2, b, hBc⟩
    · exfalso; subst hBnil; simp at hBl; omega
    · subst hBc
      rw [List.concat_eq_append] at hbuf hBl hTo
      simp at hBl
      have hread : readBuf d.buf (d.head - 1) = b := by
        rw [hbuf]
        have h9 : B2 ++ [b] ++ G ++ F = B2 ++ b :: (G ++ F) := by simp
        rw [h9, readBuf_block B2 b (G ++ F) (by omega)]
      have hbk : d.buf.take (d.head - 1) = B2 := by
        rw [hbuf]
        have h9 : B2 ++ [b] ++ G ++ F = B2 ++ (b :: (G ++ F)) := by simp
        rw [h9]
        exact List.take_left' (by omega)
      have hfr : d.buf.drop d.tail = F := by rw [hF]; rfl
      refine ⟨⟨?_, ?_⟩, ?_, ?_, rfl⟩
      · show d.head - 1 ≤ d.tail
        omega
      · show d.tail ≤ d.buf.length
        omega
      · show some (readBuf d.buf (d.head - 1)) = (d.toList).getLast?
        rw [hread, hTo]
        have h9 : F ++ (B2 ++ [b]) = (F ++ B2) ++ [b] := by simp
        rw [h9, List.getLast?_concat]
      · show d.buf.drop d.tail ++ d.buf.take (d.head - 1) = (d.toList).dropLast
        rw [hfr, hbk, hTo]
        have h9 : F ++ (B2 ++ [b]) = (F ++ B2) ++ [b] := by simp
        rw [h9, List.dropLast_concat]
  · rename_i hh
    have hhead : d.head = 0 := by omega
    have hBnil : B = [] := by
      apply List.eq_nil_of_length_eq_zero
      omega
    subst hBnil
    split
    · rename_i hne
      have htlt : d.tail < d.cap := by omega
      rcases List.eq_nil_or_concat F with hFnil | ⟨F2, f, hFc⟩
      · exfalso; subst hFnil; simp at hFl; omega
      · subst hFc
        rw [List.concat_eq_append] at hbuf hFl hTo
        simp at hFl
        have hGlen : G.length = d.tail := by omega
        have hbuf3 : d.buf = (G ++ F2) ++ [f] := by
          rw [hbuf]; simp
        have hslice : slice d.buf d.tail (d.cap - d.tail - 1) = F2 := by
          have hF2 : F2.length = d.cap - d.tail - 1 := by omega
          rw [hbuf3, slice_block G F2 [f] hGlen hF2]
        have hbuf1 : copyBuf d.buf d.tail 0 (d.cap - d.tail - 1) =
            F2 ++ d.buf.drop F2.length := by
          rw [copyBuf, hslice, writeAt]
          simp
        have hlast : d.buf.drop F2.length = (G ++ F2).drop F2.length ++ [f] := by
          conv_lhs => rw [hbuf3]
          rw [List.drop_append_eq_append_drop]
          have h0 : F2.length - (G ++ F2).length = 0 := by simp
          rw [h0, List.drop_zero]
        have hb1len : (copyBuf d.buf d.tail 0 (d.cap - d.tail - 1)).length = d.cap := by
          rw [hbuf1, List.length_append, List.length_drop, hlen]
          omega
        refine ⟨⟨?_, ?_⟩, ?_, ?_, hb1len⟩
        · show d.cap - d.tail - 1 ≤ d.cap; omega
        · show d.cap ≤ (copyBuf d.buf d.tail 0 (d.cap - d.tail - 1)).length
          rw [hb1len]
        · show some (readBuf (copyBuf d.buf d.tail 0 (d.cap - d.tail - 1)) (d.cap - 1)) =
            (d.toList).getLast?
          rw [hbuf1, hlast, hTo]
          have h9 : F2 ++ ((G ++ F2).drop F2.length ++ [f]) =
              (F2 ++ (G ++ F2).drop F2.length) ++ f :: [] := by simp
          rw [h9, readBuf_block _ f [] (by simp; omega)]
          have h10 : (F2 ++ [f]) ++ [] = F2 ++ [f] := by simp
          rw [h10, List.getLast?_concat]
        · show (copyBuf d.buf d.tail 0 (d.cap - d.tail - 1)).drop d.cap ++
            (copyBuf d.buf d.tail 0 (d.cap - d.tail - 1)).take (d.cap - d.tail - 1) =
            (d.toList).dropLast
          have hdr : (copyBuf d.buf d.tail 0 (d.cap - d.tail - 1)).drop d.cap = [] :=
            List.drop_of_length_le (by rw [hb1len])
          have htk : (copyBuf d.buf d.tail 0 (d.cap - d.tail - 1)).take (d.cap - d.tail - 1) =
              F2 := by
            rw [hbuf1]
            exact List.take_left' (by omega)
          rw [hdr, htk, hTo]
          have h9 : (F2 ++ [f]) ++ [] = F2 ++ [f] := by simp
          rw [h9, List.dropLast_concat]
          simp
    · rename_i hne
      have hFnil : F = [] := by
        apply List.eq_nil_of_length_eq_zero
        omega
      subst hFnil
      rw [hTo]
      exact ⟨⟨hI1, hI2⟩, rfl, rfl, rfl⟩


end AltDeque

theorem runDeque_refines {α : Type} [Inhabited α] (ops : List (DequeOp α)) :
    ∀ (d : AltDeque α) (s : List α), d.Inv → d.toList = s →
      runDeque d ops = runRef s ops := by
  induction ops with
  | nil => intro d s _ _; rfl
  | cons op ops ih =>
    intro d s hI hs
    cases op with
    | pushBack v =>
      obtain ⟨hI2, hTo, _⟩ := AltDeque.push_back_spec d v hI
      simp only [runDeque, runRef]
      exact ih _ _ hI2 (by rw [hTo, hs])
    | pushFront v =>
      obtain ⟨hI2, hTo, _⟩ := AltDeque.push_front_spec d v hI
      simp only [runDeque, runRef]
      exact ih _ _ hI2 (by rw [hTo, hs])
    | popBack =>
      obtain ⟨hI2, hOut, hTo, _⟩ := AltDeque.pop_back_spec d hI
      simp only [runDeque, runRef]
      rw [hOut, hs]
      congr 1
      exact ih _ _ hI2 (by rw [hTo, hs])
    | popFront =>
      obtain ⟨hI2, hOut, hTo, _⟩ := AltDeque.pop_front_spec d hI
      simp only [runDeque, runRef]
      rw [hOut, hs]
      congr 1
      exact ih _ _ hI2 (by rw [hTo, hs])

namespace AltDeque

variable {α : Type}

theorem rotate_left_spec [Inhabited α] (d : AltDeque α) (mid : Nat) (h : d.Inv)
    (hm : mid ≤ d.len) :
    ∃ r, d.rotate_left mid = Except.ok r ∧ r.Inv ∧ r.cap = d.cap ∧ r.len = d.len ∧
      r.toList = d.toList.drop mid ++ d.toList.take mid := by
  obtain ⟨K, G, F, hbuf, hK, hF, hKl, hGl, hFl⟩ := exists_blocks d h
  obtain ⟨hI1, hI2⟩ := h
  have hlen : d.buf.length = d.cap := rfl
  have hTo : d.toList = F ++ K := by rw [toList, ← hK, ← hF]
  have hlenv : d.len = d.cap - d.tail + d.head := rfl
  have hFdrop : d.buf.drop d.tail = F := by rw [hF]; rfl
  by_cases hlt : mid < d.cap - d.tail
  · have he : d.rotate_left mid = Except.ok
        { d with tail := d.tail + mid, head := d.head + mid,
                 buf := copyBuf d.buf d.tail d.head mid } := by
      simp only [rotate_left]
      rw [if_pos hlt]
    rw [he]
    set F1 := F.take mid with hF1
    set F2 := F.drop mid with hF2
    have hF12 : F = F1 ++ F2 := (List.take_append_drop mid F).symm
    have hF1l : F1.length = mid := by rw [hF1, List.length_take]; omega
    have hslice : slice d.buf d.tail mid = F1 := by
      have h9 : d.buf = (K ++ G) ++ F1 ++ F2 := by rw [hbuf, hF12]; simp
      rw [h9, slice_block (K ++ G) F1 F2 (by simp; omega) hF1l]
    have htk : d.buf.take d.head = K := by
      rw [hbuf]
      have h9 : K ++ G ++ F = K ++ (G ++ F) := by simp
      rw [h9]
      exact List.take_left' hKl
    have hw : copyBuf d.buf d.tail d.head mid =
        (K ++ F1) ++ d.buf.drop (d.head + mid) := by
      rw [copyBuf, hslice, writeAt, htk, hF1l]
    refine ⟨_, rfl, ⟨?_, ?_⟩, ?_, ?_, ?_⟩
    · show d.head + mid ≤ d.tail + mid
      omega
    · show d.tail + mid ≤ (copyBuf d.buf d.tail d.head mid).length
      rw [hw]
      simp
      omega
    · show (copyBuf d.buf d.tail d.head mid).length = d.cap
      rw [hw]
      simp
      omega
    · show (copyBuf d.buf d.tail d.head mid).length - (d.tail + mid) + (d.head + mid) = d.len
      rw [hw, hlenv]
      simp
      omega
    · show (copyBuf d.buf d.tail d.head mid).drop (d.tail + mid) ++
        (copyBuf d.buf d.tail d.head mid).take (d.head + mid) = _
      rw [hw]
      have hdr : ((K ++ F1) ++ d.buf.drop (d.head + mid)).drop (d.tail + mid) = F2 := by
        rw [List.drop_append_eq_append_drop]
        have h0 : (K ++ F1).drop (d.tail + mid) = [] :=
          List.drop_of_length_le (by simp; omega)
        rw [h0, List.nil_append, List.drop_drop]
        have h9 : d.head + mid + (d.tail + mid - (K ++ F1).length) = d.tail + mid := by
          simp; omega
        rw [h9, ← List.drop_drop, hFdrop]
      have htke : ((K ++ F1) ++ d.buf.drop (d.head + mid)).take (d.head + mid) = K ++ F1 :=
        List.take_left' (by simp; omega)
      rw [hdr, htke, hTo, hF12]
      rw [List.drop_append_eq_append_drop, List.take_append_eq_append_take]
      have h0 : mid - (F1 ++ F2).length = 0 := by simp; omega
      have h9 : (F1 ++ F2).drop mid = F2 := List.drop_left' hF1l
      have h10 : (F1 ++ F2).take mid = F1 := List.take_left' hF1l
      rw [h0, List.take_zero, List.append_nil, List.drop_zero, h9, h10]
      simp
  · by_cases hle : mid - (d.cap - d.tail) ≤ d.head
    · have he : d.rotate_left mid = Except.ok
          { d with tail := d.tail - (d.head - (mid - (d.cap - d.tail))),
                   head := mid - (d.cap - d.tail),
                   buf := copyBuf d.buf (mid - (d.cap - d.tail))
                     (d.tail - (d.head - (mid - (d.cap - d.tail))))
                     (d.head - (mid - (d.cap - d.tail))) } := by
        simp only [rotate_left]
        rw [if_neg hlt, if_pos hle]
      rw [he]
      set mid2 := mid - (d.cap - d.tail) with hmid2
      set count := d.head - mid2 with hcount
      set K1 := K.take mid2 with hK1
      set K2 := K.drop mid2 with hK2
      have hK12 : K = K1 ++ K2 := (List.take_append_drop mid2 K).symm
      have hK1l : K1.length = mid2 := by simp [hK1]; omega
      have hK2l : K2.length = count := by simp [hK2]; omega
      have hslice : slice d.buf mid2 count = K2 := by
        have h9 : d.buf = K1 ++ K2 ++ (G ++ F) := by rw [hbuf, hK12]; simp
        rw [h9, slice_block K1 K2 (G ++ F) hK1l hK2l]
      have hw : copyBuf d.buf mid2 (d.tail - count) count =
          d.buf.take (d.tail - count) ++ (K2 ++ F) := by
        rw [copyBuf, hslice, writeAt, hK2l]
        have h9 : d.tail - count + count = d.tail := by omega
        rw [h9, hFdrop]
        simp
      have htkl : (d.buf.take (d.tail - count)).length = d.tail - count := by
        simp; omega
      refine ⟨_, rfl, ⟨?_, ?_⟩, ?_, ?_, ?_⟩
      · show mid2 ≤ d.tail - count
        omega
      · show d.tail - count ≤ (copyBuf d.buf mid2 (d.tail - count) count).length
        rw [hw]
        simp
        omega
      · show (copyBuf d.buf mid2 (d.tail - count) count).length = d.cap
        rw [hw]
        simp
        omega
      · show (copyBuf d.buf mid2 (d.tail - count) count).length - (d.tail - count) + mid2 = d.len
        rw [hw, hlenv]
        simp
        omega
      · show (copyBuf d.buf mid2 (d.tail - count) count).drop (d.tail - count) ++
          (copyBuf d.buf mid2 (d.tail - count) count).take mid2 = _
        rw [hw]
        have hdr : (d.buf.take (d.tail - count) ++ (K2 ++ F)).drop (d.tail - count) =
            K2 ++ F := List.drop_left' htkl
        have htke : (d.buf.take (d.tail - count) ++ (K2 ++ F)).take mid2 = K1 := by
          rw [List.take_append_eq_append_take]
          have h0 : mid2 - (d.buf.take (d.tail - count)).length = 0 := by
            rw [htkl]; omega
          rw [h0, List.take_zero, List.append_nil, List.take_take]
          have h9 : min mid2 (d.tail - count) = mid2 := by omega
          rw [h9, hK1, hK]
          show d.buf.take mid2 = (d.buf.take d.head).take mid2
          rw [List.take_take]
          congr 1
          omega
        rw [hdr, htke, hTo]
        rw [List.drop_append_eq_append_drop, List.take_append_eq_append_take]
        have h0 : F.drop mid = [] := List.drop_of_length_le (by omega)
        have h1 : F.take mid = F := List.take_of_length_le (by omega)
        have h2 : K.drop (mid - F.length) = K2 := by
          have h9 : mid - F.length = mid2 := by omega
          rw [h9, hK2]
        have h3 : K.take (mid - F.length) = K1 := by
          have h9 : mid - F.length = mid2 := by omega
          rw [h9, hK1]
        rw [h0, h1, h2, h3]
        simp
    · exfalso
      omega

theorem rotate_right_spec [Inhabited α] (d : AltDeque α) (k : Nat) (h : d.Inv)
    (hk : k ≤ d.len) :
    ∃ r, d.rotate_right k = Except.ok r ∧ r.Inv ∧ r.cap = d.cap ∧ r.len = d.len ∧
      r.toList = d.toList.drop (d.len - k) ++ d.toList.take (d.len - k) := by
  obtain ⟨K, G, F, hbuf, hK, hF, hKl, hGl, hFl⟩ := exists_blocks d h
  obtain ⟨hI1, hI2⟩ := h
  have hlen : d.buf.length = d.cap := rfl
  have hTo : d.toList = F ++ K := by rw [toList, ← hK, ← hF]
  have hlenv : d.len = d.cap - d.tail + d.head := rfl
  have hFdrop : d.buf.drop d.tail = F := by rw [hF]; rfl
  by_cases hle : k ≤ d.head
  · have he : d.rotate_right k = Except.ok
        { d with head := d.head - k, tail := d.tail - k,
                 buf := copyBuf d.buf (d.head - k) (d.tail - k) k } := by
      simp only [rotate_right]
      rw [if_pos hle]
    rw [he]
    set K1 := K.take (d.head - k) with hK1
    set K2 := K.drop (d.head - k) with hK2
    have hK12 : K = K1 ++ K2 := (List.take_append_drop (d.head - k) K).symm
    have hK1l : K1.length = d.head - k := by rw [hK1, List.length_take]; omega
    have hK2l : K2.length = k := by rw [hK2, List.length_drop]; omega
    have hslice : slice d.buf (d.head - k) k = K2 := by
      have h9 : d.buf = K1 ++ K2 ++ (G ++ F) := by rw [hbuf, hK12]; simp
      rw [h9, slice_block K1 K2 (G ++ F) hK1l hK2l]
    have hw : copyBuf d.buf (d.head - k) (d.tail - k) k =
        d.buf.take (d.tail - k) ++ (K2 ++ F) := by
      rw [copyBuf, hslice, writeAt, hK2l]
      have h9 : d.tail - k + k = d.tail := by omega
      rw [h9, hFdrop]
      simp
    have htkl : (d.buf.take (d.tail - k)).length = d.tail - k := by
      simp; omega
    refine ⟨_, rfl, ⟨?_, ?_⟩, ?_, ?_, ?_⟩
    · show d.head - k ≤ d.tail - k
      omega
    · show d.tail - k ≤ (copyBuf d.buf (d.head - k) (d.tail - k) k).length
      rw [hw]
      simp
      omega
    · show (copyBuf d.buf (d.head - k) (d.tail - k) k).length = d.cap
      rw [hw]
      simp
      omega
    · show (copyBuf d.buf (d.head - k) (d.tail - k) k).length - (d.tail - k) + (d.head - k) =
        d.len
      rw [hw, hlenv]
      simp
      omega
    · show (copyBuf d.buf (d.head - k) (d.tail - k) k).drop (d.tail - k) ++
        (copyBuf d.buf (d.head - k) (d.tail - k) k).take (d.head - k) = _
      rw [hw]
      have hdr : (d.buf.take (d.tail - k) ++ (K2 ++ F)).drop (d.tail - k) = K2 ++ F :=
        List.drop_left' htkl
      have htke : (d.buf.take (d.tail - k) ++ (K2 ++ F)).take (d.head - k) = K1 := by
        rw [List.take_append_eq_append_take]
        have h0 : d.head - k - (d.buf.take (d.tail - k)).length = 0 := by
          rw [htkl]; omega
        rw [h0, List.take_zero, List.append_nil, List.take_take]
        have h9 : min (d.head - k) (d.tail - k) = d.head - k := by omega
        rw [h9, hK1, hK]
        show d.buf.take (d.head - k) = (d.buf.take d.head).take (d.head - k)
        rw [List.take_take]
        congr 1
        omega
      rw [hdr, htke, hTo]
      rw [List.drop_append_eq_append_drop, List.take_append_eq_append_take]
      have h0 : F.drop (d.len - k) = [] := List.drop_of_length_le (by omega)
      have h1 : F.take (d.len - k) = F := List.take_of_length_le (by omega)
      have h2 : K.drop (d.len - k - F.length) = K2 := by
        have h9 : d.len - k - F.length = d.head - k := by omega
        rw [h9, hK2]
      have h3 : K.take (d.len - k - F.length) = K1 := by
        have h9 : d.len - k - F.length = d.head - k := by omega
        rw [h9, hK1]
      rw [h0, h1, h2, h3]
      simp
  · have hk2 : k - d.head ≤ d.cap - d.tail := by omega
    have hcnt : (d.cap - d.tail) - (k - d.head) < d.cap - d.tail := by omega
    have he : d.rotate_right k = d.rotate_left ((d.cap - d.tail) - (k - d.head)) := by
      simp only [rotate_right, rotate_left]
      rw [if_neg hle, if_pos hk2, if_pos hcnt]
    obtain ⟨r, hok, hrI, hrc, hrl, hrt⟩ :=
      rotate_left_spec d ((d.cap - d.tail) - (k - d.head)) ⟨hI1, hI2⟩ (by omega)
    refine ⟨r, by rw [he, hok], hrI, hrc, hrl, ?_⟩
    rw [hrt]
    have h9 : (d.cap - d.tail) - (k - d.head) = d.len - k := by
      rw [hlenv]; omega
    rw [h9]

theorem rotate_left_oob [Inhabited α] (d : AltDeque α) (mid : Nat) (h : d.Inv)
    (hm : d.len < mid) :
    d.rotate_left mid = Except.error (index_out_of_bounds d.len mid) := by
  obtain ⟨hI1, hI2⟩ := h
  have hlenv : d.len = d.cap - d.tail + d.head := rfl
  have h1 : ¬(mid < d.cap - d.tail) := by omega
  have h2 : ¬(mid - (d.cap - d.tail) ≤ d.head) := by omega
  simp only [rotate_left]
  rw [if_neg h1, if_neg h2]
  congr 2
  omega

theorem rotate_right_oob [Inhabited α] (d : AltDeque α) (k : Nat) (h : d.Inv)
    (hk : d.len < k) :
    d.rotate_right k = Except.error (index_out_of_bounds d.len k) := by
  obtain ⟨hI1, hI2⟩ := h
  have hlenv : d.len = d.cap - d.tail + d.head := rfl
  have h1 : ¬(k ≤ d.head) := by omega
  have h2 : ¬(k - d.head ≤ d.cap - d.tail) := by omega
  simp only [rotate_right]
  rw [if_neg h1, if_neg h2]
  congr 2
  omega

theorem length_swapTwo {α : Type} [Inhabited α] (l : List α) (i j : Nat) :
    (swapTwo l i j).length = l.length := by
  simp [swapTwo]

theorem length_swap_range {α : Type} [Inhabited α] (l : List α) (a b c : Nat) :
    (swap_range l a b c).length = l.length := by
  rw [swap_range]
  generalize List.range' a (b - a) = is
  induction is generalizing l with
  | nil => rfl
  | cons i is ih => rw [List.foldl_cons, ih, length_swapTwo]

theorem length_jug_loop_ge {α : Type} [Inhabited α] (fuel : Nat) :
    ∀ (l : List α) (c lft r fr : Nat), l.length ≤ (jug_loop fuel l c lft r fr).length := by
  induction fuel with
  | zero => intro l c lft r fr; exact Nat.le_refl _
  | succ n ih =>
    intro l c lft r fr
    simp only [jug_loop]
    have hsr : (swap_range l lft r c).length = l.length := length_swap_range l lft r c
    split
    · exact le_trans (le_of_eq hsr.symm) (ih _ _ _ _ _)
    · split
      · split
        · exact le_trans (le_of_eq hsr.symm) (le_length_copyBuf _ _ _ _)
        · exact le_trans (le_of_eq hsr.symm) (ih _ _ _ _ _)
      · exact le_of_eq hsr.symm

end AltDeque

namespace AltDeque

variable {α : Type}

theorem insert_cases [Inhabited α] (d : AltDeque α) (i : Nat) (v : α) (h : d.Inv) :
    (d.len < i → ∃ r, d.insert i v = Except.error (index_out_of_bounds d.len i, r) ∧
      r.toList = d.toList ∧ r.Inv) ∧
    (∀ r, d.insert i v = Except.ok r → r.Inv) ∧
    (∀ m r, d.insert i v = Except.error (m, r) → r.Inv) := by
  obtain ⟨hI, hlt, hTo, hLen⟩ := growIfFull_spec d h
  have he : d.insert i v =
      (if i < (if d.is_full then d.grow else d).cap - (if d.is_full then d.grow else d).tail
       then
        Except.ok { (if d.is_full then d.grow else d) with
          tail := (if d.is_full then d.grow else d).tail - 1,
          buf := (copyBuf (if d.is_full then d.grow else d).buf
              (if d.is_full then d.grow else d).tail
              ((if d.is_full then d.grow else d).tail - 1) (i + 1)).set
            ((if d.is_full then d.grow else d).tail - 1 + i) v }
       else if i - ((if d.is_full then d.grow else d).cap -
          (if d.is_full then d.grow else d).tail) ≤ (if d.is_full then d.grow else d).head
       then
        Except.ok { (if d.is_full then d.grow else d) with
          head := (if d.is_full then d.grow else d).head + 1,
          buf := (copyBuf (if d.is_full then d.grow else d).buf
              (i - ((if d.is_full then d.grow else d).cap -
                (if d.is_full then d.grow else d).tail))
              (i - ((if d.is_full then d.grow else d).cap -
                (if d.is_full then d.grow else d).tail) + 1)
              ((if d.is_full then d.grow else d).head -
                (i - ((if d.is_full then d.grow else d).cap -
                  (if d.is_full then d.grow else d).tail)))).set
            (i - ((if d.is_full then d.grow else d).cap -
              (if d.is_full then d.grow else d).tail)) v }
       else
        Except.error (index_out_of_bounds (if d.is_full then d.grow else d).len
          (i - ((if d.is_full then d.grow else d).cap -
            (if d.is_full then d.grow else d).tail) +
            ((if d.is_full then d.grow else d).cap -
              (if d.is_full then d.grow else d).tail)),
          (if d.is_full then d.grow else d))) := rfl
  revert hI hlt hTo hLen he
  generalize (if d.is_full then d.grow else d) = d1
  intro hI hlt hTo hLen he
  obtain ⟨h1a, h1b⟩ := hI
  have hlenbuf : d1.buf.length = d1.cap := rfl
  have hlv : d1.len = d1.cap - d1.tail + d1.head := rfl
  have hLen2 : d.len = d1.cap - d1.tail + d1.head := by omega
  refine ⟨?_, ?_, ?_⟩
  · intro hoob
    have hc1 : ¬(i < d1.cap - d1.tail) := by omega
    have hc2 : ¬(i - (d1.cap - d1.tail) ≤ d1.head) := by omega
    have harg : i - (d1.cap - d1.tail) + (d1.cap - d1.tail) = i := by omega
    rw [he, if_neg hc1, if_neg hc2, harg, hLen]
    exact ⟨d1, rfl, hTo, ⟨h1a, h1b⟩⟩
  · intro r heq
    rw [he] at heq
    by_cases hc1 : i < d1.cap - d1.tail
    · rw [if_pos hc1] at heq
      simp only [Except.ok.injEq] at heq
      subst heq
      refine ⟨?_, ?_⟩
      · show d1.head ≤ d1.tail - 1
        omega
      · show d1.tail - 1 ≤
          ((copyBuf d1.buf d1.tail (d1.tail - 1) (i + 1)).set (d1.tail - 1 + i) v).length
        rw [List.length_set, length_copyBuf_of_le (by omega) (by omega)]
        omega
    · rw [if_neg hc1] at heq
      by_cases hc2 : i - (d1.cap - d1.tail) ≤ d1.head
      · rw [if_pos hc2] at heq
        simp only [Except.ok.injEq] at heq
        subst heq
        refine ⟨?_, ?_⟩
        · show d1.head + 1 ≤ d1.tail
          omega
        · show d1.tail ≤ ((copyBuf d1.buf (i - (d1.cap - d1.tail))
            (i - (d1.cap - d1.tail) + 1) (d1.head - (i - (d1.cap - d1.tail)))).set
            (i - (d1.cap - d1.tail)) v).length
          rw [List.length_set, length_copyBuf_of_le (by omega) (by omega)]
          omega
      · rw [if_neg hc2] at heq
        exact absurd heq (by simp)
  · intro m r heq
    rw [he] at heq
    by_cases hc1 : i < d1.cap - d1.tail
    · rw [if_pos hc1] at heq
      exact absurd heq (by simp)
    · rw [if_neg hc1] at heq
      by_cases hc2 : i - (d1.cap - d1.tail) ≤ d1.head
      · rw [if_pos hc2] at heq
        exact absurd heq (by simp)
      · rw [if_neg hc2] at heq
        simp only [Except.error.injEq, Prod.mk.injEq] at heq
        obtain ⟨-, heq2⟩ := heq
        subst heq2
        exact ⟨h1a, h1b⟩

theorem remove_inv [Inhabited α] (d : AltDeque α) (i : Nat) (h : d.Inv) :
    ∀ x r, d.remove i = some (x, r) → r.Inv := by
  obtain ⟨h1, h2⟩ := h
  have hlenbuf : d.buf.length = d.cap := rfl
  intro x r heq
  simp only [remove] at heq
  by_cases hc1 : i < d.cap - d.tail
  · rw [if_pos hc1] at heq
    simp only [Option.some.injEq, Prod.mk.injEq] at heq
    obtain ⟨-, heq2⟩ := heq
    subst heq2
    refine ⟨?_, ?_⟩
    · show d.head ≤ d.tail + 1
      omega
    · show d.tail + 1 ≤ (copyBuf d.buf d.tail (d.tail + 1) i).length
      rw [length_copyBuf_of_le (by omega) (by omega)]
      omega
  · rw [if_neg hc1] at heq
    by_cases hc2 : i - (d.cap - d.tail) < d.head
    · rw [if_pos hc2] at heq
      simp only [Option.some.injEq, Prod.mk.injEq] at heq
      obtain ⟨-, heq2⟩ := heq
      subst heq2
      refine ⟨?_, ?_⟩
      · show d.head - 1 ≤ d.tail
        omega
      · show d.tail ≤ (copyBuf d.buf (i - (d.cap - d.tail) + 1) (i - (d.cap - d.tail))
          (d.head - 1 - (i - (d.cap - d.tail)))).length
        rw [length_copyBuf_of_le (by omega) (by omega)]
        omega
    · rw [if_neg hc2] at heq
      exact absurd heq (by simp)

theorem truncate_inv (d : AltDeque α) (n : Nat) (h : d.Inv) : (d.truncate n).Inv := by
  obtain ⟨h1, h2⟩ := h
  have hlenbuf : d.buf.length = d.cap := rfl
  have hlv : d.len = d.cap - d.tail + d.head := rfl
  simp only [truncate]
  by_cases hc0 : n > d.len
  · rw [if_pos hc0]
    exact ⟨h1, h2⟩
  · rw [if_neg hc0]
    by_cases hc1 : n > d.cap - d.tail
    · rw [if_pos hc1]
      refine ⟨?_, ?_⟩
      · show n - (d.cap - d.tail) ≤ d.tail
        omega
      · show d.tail ≤ d.buf.length
        omega
    · rw [if_neg hc1]
      refine ⟨?_, ?_⟩
      · show 0 ≤ d.cap - n
        omega
      · show d.cap - n ≤ (copyBuf d.buf d.tail (d.cap - n) n).length
        rw [length_copyBuf_of_le (by omega) (by omega)]
        omega

theorem shrink_to_spec (d : AltDeque α) (m : Nat) (h : d.Inv) :
    (d.shrink_to m).Inv ∧ (d.cap ≤ m → d.shrink_to m = d) ∧
    (m < d.cap → (d.shrink_to m).cap = max m d.len) := by
  obtain ⟨h1, h2⟩ := h
  have hlenbuf : d.buf.length = d.cap := rfl
  have hlv : d.len = d.cap - d.tail + d.head := rfl
  have hfl : d.cap - d.tail ≤ d.len := by omega
  by_cases hge : m ≥ d.cap
  · have he : d.shrink_to m = d := by
      simp only [shrink_to]
      rw [if_pos hge]
    rw [he]
    exact ⟨⟨h1, h2⟩, fun _ => rfl, fun hlt => absurd hge (by omega)⟩
  · have hb1 : ((copyBuf d.buf d.tail (max m d.len - (d.cap - d.tail))
        (d.cap - d.tail)).take (max m d.len)).length = max m d.len := by
      rw [List.length_take, length_copyBuf_of_le (by omega) (by omega)]
      omega
    have hc2 : ¬(max m d.len < ((copyBuf d.buf d.tail (max m d.len - (d.cap - d.tail))
        (d.cap - d.tail)).take (max m d.len)).length) := by
      rw [hb1]
      omega
    have he : d.shrink_to m =
        { d with tail := max m d.len - (d.cap - d.tail),
                 buf := (copyBuf d.buf d.tail (max m d.len - (d.cap - d.tail))
                   (d.cap - d.tail)).take (max m d.len) } := by
      have hc2x : ¬(m ⊔ d.len < (List.take (m ⊔ d.len) (copyBuf d.buf d.tail
          (m ⊔ d.len - (d.buf.length - d.tail)) (d.buf.length - d.tail))).length) := by
        rw [hlenbuf]
        exact hc2
      simp only [shrink_to]
      rw [if_neg hge]
      dsimp only [cap]
      rw [if_neg hc2x]
    rw [he]
    refine ⟨⟨?_, ?_⟩, fun hle => absurd hle (by omega), fun _ => hb1⟩
    · show d.head ≤ max m d.len - (d.cap - d.tail)
      omega
    · show max m d.len - (d.cap - d.tail) ≤
        ((copyBuf d.buf d.tail (max m d.len - (d.cap - d.tail))
          (d.cap - d.tail)).take (max m d.len)).length
      rw [hb1]
      omega

theorem with_capacity_inv [Inhabited α] (n : Nat) : (with_capacity n : AltDeque α).Inv := by
  refine ⟨?_, ?_⟩
  · show 0 ≤ n
    omega
  · show n ≤ (List.replicate n (default : α)).length
    simp

theorem reserve_inv [Inhabited α] (d : AltDeque α) (n : Nat) (h : d.Inv) :
    (d.reserve n).Inv := by
  obtain ⟨h1, h2⟩ := h
  have hlenbuf : d.buf.length = d.cap := rfl
  by_cases hg : n > d.cap - d.len
  · have he : d.reserve n = AltDeque.handle_capacity_increase
        { d with buf := d.buf ++ List.replicate (max MIN_NON_ZERO_CAP (max (d.cap * 2) (d.len + n)) - d.cap) default }
        d.cap := by
      simp only [reserve]
      rw [if_pos hg]
    obtain ⟨e1, e2, e3, e4, e5⟩ := extend_then_handle_spec d
      (List.replicate (max MIN_NON_ZERO_CAP (max (d.cap * 2) (d.len + n)) - d.cap)
        (default : α)) _ rfl h1 h2
    rw [he]
    constructor
    · rw [e2, e3]
      omega
    · rw [e3, e1]
      simp
      omega
  · have he : d.reserve n = AltDeque.handle_capacity_increase d d.cap := by
      simp only [reserve]
      rw [if_neg hg]
    obtain ⟨e1, e2, e3, e4, e5⟩ :=
      handle_capacity_increase_spec d d.cap h1 h2 (le_refl _)
    rw [he]
    constructor
    · rw [e2, e3]
      omega
    · rw [e3, e1]
      omega

theorem make_contiguous_inv [Inhabited α] (d : AltDeque α) (h : d.Inv) :
    d.make_contiguous.1.Inv := by
  obtain ⟨h1, h2⟩ := h
  have hlenbuf : d.buf.length = d.cap := rfl
  simp only [make_contiguous]
  by_cases hh : d.head = 0
  · rw [if_pos hh]
    exact ⟨h1, h2⟩
  · rw [if_neg hh]
    refine ⟨?_, ?_⟩
    · show 0 ≤ d.tail - d.head
      omega
    · show d.tail - d.head ≤ _
      have hb : d.buf.length ≤
          (if d.cap - d.tail = 0 then
            copyBuf d.buf 0 (d.tail - d.head) d.head
          else if d.tail - d.head ≥ d.head then
            copyBuf (copyBuf d.buf d.tail (d.tail - d.head) (d.cap - d.tail)) 0
              (d.cap - d.head) d.head
          else if d.tail - d.head ≥ d.cap - d.tail then
            copyBuf (copyBuf (copyBuf d.buf 0 (d.cap - d.tail) d.head) d.tail 0
              (d.cap - d.tail)) 0 (d.tail - d.head) (d.cap - d.tail + d.head)
          else
            jug_loop (d.head + d.head + (d.cap - d.tail + (d.tail - d.head)) + 1) d.buf
              (d.cap - d.tail + (d.tail - d.head)) (d.head - (d.cap - d.tail + (d.tail - d.head)))
              d.head (d.tail - d.head)).length := by
        split
        · exact le_length_copyBuf _ _ _ _
        · split
          · exact le_trans (le_length_copyBuf _ _ _ _) (le_length_copyBuf _ _ _ _)
          · split
            · exact le_trans (le_length_copyBuf _ _ _ _)
                (le_trans (le_length_copyBuf _ _ _ _) (le_length_copyBuf _ _ _ _))
            · exact length_jug_loop_ge _ _ _ _ _ _
      exact le_trans (by omega) hb

end AltDeque

theorem fromVec_spec {α : Type} [Inhabited α] (v : Vec α) (hv : v.elems.length ≤ v.cap) :
    (fromVec v).Inv ∧ (fromVec v).cap = v.cap ∧ (fromVec v).head = v.elems.length ∧
    (fromVec v).tail = v.cap ∧ (fromVec v).frontSlice = [] ∧
    (fromVec v).backSlice = v.elems ∧ (fromVec v).len = v.elems.length := by
  have hlen : (v.elems ++ List.replicate (v.cap - v.elems.length) (default : α)).length =
      v.cap := by
    simp
    omega
  refine ⟨⟨hv, ?_⟩, hlen, rfl, rfl, ?_, ?_, ?_⟩
  · show v.cap ≤ (v.elems ++ List.replicate (v.cap - v.elems.length) (default : α)).length
    rw [hlen]
  · show (v.elems ++ List.replicate (v.cap - v.elems.length) (default : α)).drop v.cap = []
    exact List.drop_of_length_le (le_of_eq hlen)
  · show (v.elems ++ List.replicate (v.cap - v.elems.length) (default : α)).take
      v.elems.length = v.elems
    exact List.take_left' rfl
  · show (v.elems ++ List.replicate (v.cap - v.elems.length) (default : α)).length -
      v.cap + v.elems.length = v.elems.length
    rw [hlen]
    omega

theorem fromArray_inv {α : Type} [Inhabited α] (l : List α) : (fromArray l).Inv := by
  refine ⟨?_, ?_⟩
  · show 0 ≤ (List.replicate l.length (default : α)).length - l.length
    omega
  · show (List.replicate l.length (default : α)).length - l.length ≤
      (writeAt (List.replicate l.length (default : α))
        ((List.replicate l.length (default : α)).length - l.length) l).length
    exact le_trans (by simp) (le_length_writeAt _ _ _)

theorem fromPair_inv {α : Type} [Inhabited α] (f b : List α) : (fromPair f b).Inv := by
  refine ⟨?_, ?_⟩
  · show b.length ≤ (List.replicate (f.length + b.length) (default : α)).length - f.length
    simp
  · show (List.replicate (f.length + b.length) (default : α)).length - f.length ≤
      (writeAt (writeAt (List.replicate (f.length + b.length) (default : α))
        ((List.replicate (f.length + b.length) (default : α)).length - f.length) f) 0 b).length
    exact le_trans (by simp) (le_trans (le_length_writeAt _ _ _) (le_length_writeAt _ _ _))

theorem simplify_range_fault (start stop len : Nat) (hbad : len < stop ∨ stop < start) :
    ∃ m, simplify_range start stop len = Except.error m := by
  simp only [simplify_range]
  by_cases h1 : stop ≤ len
  · rw [if_pos h1]
    have h2 : ¬(start ≤ stop) := by omega
    rw [if_neg h2]
    exact ⟨_, rfl⟩
  · rw [if_neg h1]
    exact ⟨_, rfl⟩

theorem simplify_range_ok (start stop len : Nat) (h1 : stop ≤ len) (h2 : start ≤ stop) :
    simplify_range start stop len = Except.ok (start, stop) := by
  simp only [simplify_range]
  rw [if_pos h1, if_pos h2]

theorem drain_make_fault {α : Type} (d : AltDeque α) (s e : Nat)
    (hbad : d.len < e ∨ e < s) :
    ∃ m, Drain.make d s e = Except.error (m, d) := by
  obtain ⟨m, hm⟩ := simplify_range_fault s e d.len hbad
  exact ⟨m, by simp only [Drain.make, hm]⟩

theorem drain_make_ok {α : Type} (d : AltDeque α) (s e : Nat) (h1 : e ≤ d.len)
    (h2 : s ≤ e) :
    Drain.make d s e = Except.ok
      { inner := { d with head := 0, tail := d.cap }, old_head := d.head, old_tail := d.tail,
        range_start := s, range_end := e, start := s, stop := e } := by
  simp only [Drain.make, simplify_range_ok s e d.len h1 h2]

theorem drain_drop_inv {α : Type} [Inhabited α] (d : AltDeque α) (s e : Nat) (h : d.Inv)
    (h1 : e ≤ d.len) (h2 : s ≤ e) :
    ∀ st, Drain.make d s e = Except.ok st → st.inner.Inv ∧ (Drain.drop st).Inv := by
  obtain ⟨hI1, hI2⟩ := h
  have hlenbuf : d.buf.length = d.cap := rfl
  have hlv : d.len = d.cap - d.tail + d.head := rfl
  intro st heq
  rw [drain_make_ok d s e h1 h2] at heq
  simp only [Except.ok.injEq] at heq
  subst heq
  constructor
  · constructor
    · show 0 ≤ d.cap
      omega
    · show d.cap ≤ d.buf.length
      omega
  · simp only [Drain.drop]
    dsimp only [AltDeque.cap]
    by_cases hc1 : s < d.buf.length - d.tail
    · rw [if_pos hc1]
      by_cases hc2 : e ≤ d.buf.length - d.tail
      · rw [if_pos hc2]
        constructor
        · show 0 ≤ d.buf.length - (e - s)
          omega
        · show d.buf.length - (e - s) ≤
            (copyBuf d.buf d.tail (d.buf.length - (e - s)) s).length
          exact le_trans (by omega) (le_length_copyBuf _ _ _ _)
      · rw [if_neg hc2]
        constructor
        · show d.head - (e - (d.buf.length - d.tail)) ≤ d.buf.length - s
          omega
        · show d.buf.length - s ≤
            (copyBuf (copyBuf d.buf d.tail (d.buf.length - s) s)
              (e - (d.buf.length - d.tail)) 0 (d.head - (e - (d.buf.length - d.tail)))).length
          exact le_trans (by omega)
            (le_trans (le_length_copyBuf _ _ _ _) (le_length_copyBuf _ _ _ _))
    · rw [if_neg hc1]
      constructor
      · show d.head - (e - s) ≤ d.buf.length
        omega
      · show d.buf.length ≤ (copyBuf d.buf (e - (d.buf.length - d.tail))
          (s - (d.buf.length - d.tail)) (d.head - (e - (d.buf.length - d.tail)))).length
        exact le_length_copyBuf _ _ _ _

theorem get_spec {α : Type} [Inhabited α] (d : AltDeque α) (i : Nat) (h : d.Inv) :
    d.get i = d.toList[i]? ∧
    (d.len ≤ i → d.get i = none ∧
      d.indexRead i = Except.error (index_out_of_bounds d.len i)) := by
  obtain ⟨B, G, F, hbuf, hB, hF, hBl, hGl, hFl⟩ := d.exists_blocks h
  obtain ⟨h1, h2⟩ := h
  have hlenbuf : d.buf.length = d.cap := rfl
  have htl : d.toList = F ++ B := by rw [AltDeque.toList, ← hF, ← hB]
  have hBG : (B ++ G).length = d.tail := by simp [hBl, hGl]; omega
  have hget : d.get i = d.toList[i]? := by
    by_cases hc0 : i < d.cap - d.tail + d.head
    · by_cases hc1 : i < d.cap - d.tail
      · have he : d.get i = some (readBuf d.buf (d.tail + i)) := by
          simp only [AltDeque.get]; rw [if_pos hc0, if_pos hc1]
        have hiF : i < F.length := by omega
        have hr : readBuf d.buf (d.tail + i) = F.get ⟨i, hiF⟩ := by
          rw [readBuf, hbuf,
            List.getD_append_right _ _ _ _ (by omega : (B ++ G).length ≤ d.tail + i)]
          have hsub : d.tail + i - (B ++ G).length = i := by omega
          rw [hsub, List.getD_eq_getElem F default hiF]
          rfl
        rw [he, hr, htl, List.getElem?_append, if_pos hiF,
          List.getElem?_eq_getElem hiF]
        rfl
      · have he : d.get i = some (readBuf d.buf (i - (d.cap - d.tail))) := by
          simp only [AltDeque.get]; rw [if_pos hc0, if_neg hc1]
        have hiB : i - (d.cap - d.tail) < B.length := by omega
        have hiF' : F.length ≤ i := by omega
        have hr : readBuf d.buf (i - (d.cap - d.tail)) =
            B.get ⟨i - (d.cap - d.tail), hiB⟩ := by
          rw [readBuf, hbuf,
            List.getD_append _ _ _ _ (by omega : i - (d.cap - d.tail) < (B ++ G).length),
            List.getD_append _ _ _ _ (by omega : i - (d.cap - d.tail) < B.length),
            List.getD_eq_getElem B default hiB]
          rfl
        have hidx : i - F.length = i - (d.cap - d.tail) := by omega
        rw [he, hr, htl, List.getElem?_append_right hiF', hidx,
          List.getElem?_eq_getElem hiB]
        rfl
    · have he : d.get i = none := by
        simp only [AltDeque.get]; rw [if_neg hc0]
      have hlen : d.toList.length ≤ i := by
        rw [d.toList_length ⟨h1, h2⟩]
        show d.cap - d.tail + d.head ≤ i
        omega
      rw [he, List.getElem?_eq_none hlen]
  refine ⟨hget, fun hge => ?_⟩
  have hnone : d.get i = none := by
    rw [hget]
    apply List.getElem?_eq_none
    rw [d.toList_length ⟨h1, h2⟩]
    exact hge
  exact ⟨hnone, by simp only [AltDeque.indexRead, hnone]⟩

theorem range_iter_fault {α : Type} (d : AltDeque α) (s e : Nat)
    (hbad : d.len < e ∨ e < s) : ∃ m, range_iter d s e = Except.error m := by
  obtain ⟨m, hm⟩ := simplify_range_fault s e d.len hbad
  exact ⟨m, by simp only [range_iter, hm]⟩

theorem rotate_restore {α : Type} (l : List α) (k : Nat) :
    (l.drop k ++ l.take k).drop (l.length - k) ++
      (l.drop k ++ l.take k).take (l.length - k) = l := by
  have h1 : (l.drop k).length = l.length - k := by simp
  rw [List.drop_left' h1, List.take_left' h1, List.take_append_drop]

/-- Claim C1: every mix of `push_back`/`push_front`/`pop_back`/`pop_front`
run from the empty deque returns, pop call by pop call (`none` answers
included), exactly what the reference double-ended queue -- a plain list of
the logical sequence -- returns; the stack flips inside `pop_front` and
`pop_back` are covered because the underlying refinement is proved for every
reachable state. -/
theorem c1_push_pop_refines_reference {α : Type} [Inhabited α] (ops : List (DequeOp α)) :
    runDeque (AltDeque.new : AltDeque α) ops = runRef [] ops :=
  runDeque_refines ops AltDeque.new [] ⟨Nat.le_refl 0, Nat.le_refl 0⟩ rfl

/-- Claim C2 (refuted, code bug): draining `1..2` from the deque with front
stack `[-3,-2,-1]` and back stack `[1,2,3]` (logical contents
`[-3,-2,-1,1,2,3]`) yields the right element `[-2]`, but after the iterator
is dropped the deque holds only `[-3]` instead of `[-3,-1,1,2,3]`: the
front-stack-only compaction case of `Drop for Drain` sets
`tail = cap - range.len()` (instead of moving the rest of the front stack
down) and never restores `head`, losing every element after the range. -/
theorem c2_drain_leaves_wrong_remainder :
    (drain_run (fromPair ([-3, -2, -1] : List Int) [1, 2, 3]) 1 2).1 = [-2] ∧
    (drain_run (fromPair ([-3, -2, -1] : List Int) [1, 2, 3]) 1 2).2.toList = [-3] ∧
    (fromPair ([-3, -2, -1] : List Int) [1, 2, 3]).toList = [-3, -2, -1, 1, 2, 3] := by
  decide

/-- Claim C3: the struct invariant `head ≤ tail ≤ capacity` is preserved by
every modelled operation (constructors, pushes, pops, reserve, truncate,
shrink, make_contiguous, grow, insert, remove, rotations and drain,
including the states carried by their faults), the length always equals
`capacity - tail + head`, emptiness and fullness are characterised by the
claimed cursor equations, and a capacity increase re-establishes the
invariant with the front stack again ending at the new capacity. -/
theorem c3_invariants_hold {α : Type} [Inhabited α] (d : AltDeque α) (v : α)
    (n m i k : Nat) (h : d.Inv) : C3Prop d v n m i k := by
  have h1 := h.1
  have h2 := h.2
  have hlenbuf : d.buf.length = d.cap := rfl
  obtain ⟨hg1, hgcap, _, hgtail, _, hgfr, _, _, _⟩ := AltDeque.grow_spec d h
  refine ⟨⟨Nat.le_refl 0, Nat.le_refl 0⟩, AltDeque.with_capacity_inv n,
    (AltDeque.push_back_spec d v h).1, (AltDeque.push_front_spec d v h).1,
    (AltDeque.pop_front_spec d h).1, (AltDeque.pop_back_spec d h).1,
    AltDeque.reserve_inv d n h, AltDeque.truncate_inv d n h,
    (AltDeque.shrink_to_spec d m h).1, AltDeque.make_contiguous_inv d h, hg1,
    (AltDeque.insert_cases d i v h).2.1, (AltDeque.insert_cases d i v h).2.2,
    AltDeque.remove_inv d i h, ?_, ?_, ?_, rfl, ?_, ?_, ?_, hgfr⟩
  · intro r hok
    by_cases hk : k ≤ d.len
    · obtain ⟨r1, hok1, hI1, _, _, _⟩ := AltDeque.rotate_left_spec d k h hk
      rw [hok1] at hok
      simp only [Except.ok.injEq] at hok
      subst hok
      exact hI1
    · rw [AltDeque.rotate_left_oob d k h (by omega)] at hok
      exact absurd hok (by simp)
  · intro r hok
    by_cases hk : k ≤ d.len
    · obtain ⟨r1, hok1, hI1, _, _, _⟩ := AltDeque.rotate_right_spec d k h hk
      rw [hok1] at hok
      simp only [Except.ok.injEq] at hok
      subst hok
      exact hI1
    · rw [AltDeque.rotate_right_oob d k h (by omega)] at hok
      exact absurd hok (by simp)
  · intro s e st hok
    by_cases hgood : e ≤ d.len ∧ s ≤ e
    · exact drain_drop_inv d s e h hgood.1 hgood.2 st hok
    · obtain ⟨mm, hm⟩ := drain_make_fault d s e (by omega)
      rw [hm] at hok
      exact absurd hok (by simp)
  · simp [AltDeque.is_empty]
  · simp [AltDeque.is_full]
  · rw [hgcap, hgtail]
    have hrc := AltDeque.lt_reserve_for_push_cap d.cap
    omega

/-- Witness for C3 at a concrete deque and concrete arguments. -/
theorem c3_invariants_hold_witness :
    (fromPair ([1, 2] : List Int) [3]).Inv ∧
      C3Prop (fromPair ([1, 2] : List Int) [3]) 0 2 1 1 1 :=
  ⟨by decide, c3_invariants_hold _ 0 2 1 1 1 (by decide)⟩

/-- Claim C4 (refuted, code bug): on the full deque with front stack
`[1,2,3]` and back stack `[4,5]` (logical contents `[1,2,3,4,5]`, no free
slot, so the tight-capacity block-swap juggling branch runs),
`make_contiguous` returns the slice `[3,1,2,4,5]` and leaves the deque's
logical contents equal to `[3,1,2,4,5]`: the juggling loop scrambles the
order instead of preserving the logical element sequence. -/
theorem c4_make_contiguous_reorders :
    ((fromPair ([1, 2, 3] : List Int) [4, 5]).make_contiguous).2 = [3, 1, 2, 4, 5] ∧
    ((fromPair ([1, 2, 3] : List Int) [4, 5]).make_contiguous).1.toList = [3, 1, 2, 4, 5] ∧
    (fromPair ([1, 2, 3] : List Int) [4, 5]).toList = [1, 2, 3, 4, 5] := by
  decide

/-- Claim C5: `rotate_left k` then `rotate_right k` restores the original
logical sequence for every `k ≤ len`, rotating by exactly `len` leaves the
sequence unchanged on either side, and rotating by more than `len` faults
with the out-of-bounds message. -/
theorem c5_rotate_round_trip {α : Type} [Inhabited α] (d : AltDeque α) (k : Nat)
    (h : d.Inv) : C5Prop d k := by
  have hL : d.toList.length = d.len := AltDeque.toList_length d h
  refine ⟨?_, ?_, ?_, fun hk => ⟨AltDeque.rotate_left_oob d k h hk,
    AltDeque.rotate_right_oob d k h hk⟩⟩
  · intro hk
    obtain ⟨r1, hok1, hI1, hc1, hl1, ht1⟩ := AltDeque.rotate_left_spec d k h hk
    obtain ⟨r2, hok2, hI2, hc2, hl2, ht2⟩ := AltDeque.rotate_right_spec r1 k hI1 (by omega)
    refine ⟨r1, r2, hok1, hok2, hI1, hI2, ?_⟩
    rw [ht2, ht1, hl1, ← hL]
    exact rotate_restore d.toList k
  · obtain ⟨r, hok, _, _, _, ht⟩ := AltDeque.rotate_left_spec d d.len h (Nat.le_refl _)
    refine ⟨r, hok, ?_⟩
    rw [ht, List.drop_of_length_le (by omega), List.take_of_length_le (by omega)]
    simp
  · obtain ⟨r, hok, _, _, _, ht⟩ := AltDeque.rotate_right_spec d d.len h (Nat.le_refl _)
    refine ⟨r, hok, ?_⟩
    rw [ht, Nat.sub_self]
    simp

/-- Witness for C5 at a concrete deque and rotation amount. -/
theorem c5_rotate_round_trip_witness :
    (fromPair ([1, 2] : List Int) [3]).Inv ∧ C5Prop (fromPair ([1, 2] : List Int) [3]) 1 :=
  ⟨by decide, c5_rotate_round_trip _ 1 (by decide)⟩

/-- Claim C6: `get i` returns the element at logical position `i` -- read at
physical offset `tail + i` when `i < capacity - tail`, otherwise at offset
`i - (capacity - tail)` which is then `< head` -- and returns `none` for
`i ≥ len`, while the `Index` impl faults on the same index with exactly the
message "index out of bounds: the len is {len} but the index is {index}". -/
theorem c6_get_index_spec {α : Type} [Inhabited α] (d : AltDeque α) (i : Nat)
    (h : d.Inv) : C6Prop d i := by
  obtain ⟨hget, himp⟩ := get_spec d i h
  have h1 := h.1
  have h2 := h.2
  have hlenbuf : d.buf.length = d.cap := rfl
  have hlv : d.len = d.cap - d.tail + d.head := rfl
  refine ⟨hget, ?_, ?_, fun hge => (himp hge).1, fun hge => (himp hge).2⟩
  · intro hc1
    have hc0 : i < d.cap - d.tail + d.head := by omega
    simp only [AltDeque.get]
    rw [if_pos hc0, if_pos hc1]
  · intro hlt hc1
    have hc0 : i < d.cap - d.tail + d.head := by omega
    have hc1n : ¬(i < d.cap - d.tail) := by omega
    refine ⟨by omega, ?_⟩
    simp only [AltDeque.get]
    rw [if_pos hc0, if_neg hc1n]

/-- Witness for C6 at a concrete deque and index. -/
theorem c6_get_index_spec_witness :
    (fromPair ([1, 2] : List Int) [3]).Inv ∧ C6Prop (fromPair ([1, 2] : List Int) [3]) 1 :=
  ⟨by decide, c6_get_index_spec _ 1 (by decide)⟩

/-- Claim C7: faults are atomic for the logical contents: `insert i v` with
`i > len` faults with the out-of-bounds message and a state whose logical
sequence is unchanged, and `drain`/`range` with an invalid range (start past
end, or end past `len`) fault before any mutation -- `drain` hands back the
untouched deque and `range` reads nothing. -/
theorem c7_fault_atomicity {α : Type} [Inhabited α] (d : AltDeque α) (i : Nat) (v : α)
    (s e : Nat) (h : d.Inv) : C7Prop d i v s e := by
  refine ⟨?_, fun hbad => ⟨drain_make_fault d s e hbad, range_iter_fault d s e hbad⟩⟩
  intro hoob
  exact (AltDeque.insert_cases d i v h).1 hoob

/-- Witness for C7 at a concrete deque, index and range. -/
theorem c7_fault_atomicity_witness :
    (fromPair ([1, 2] : List Int) [3]).Inv ∧
      C7Prop (fromPair ([1, 2] : List Int) [3]) 9 0 2 9 :=
  ⟨by decide, c7_fault_atomicity _ 9 0 2 9 (by decide)⟩

/-- Claim C8 counterexample: `shrink_to 10` on an empty deque of capacity 3
is an early-return no-op (the source returns when `min_capacity ≥ capacity`),
so the resulting capacity 3 is strictly below the claimed lower bound
`max(m, len) = 10`. -/
theorem c8_shrink_to_counterexample :
    ((AltDeque.with_capacity 3 : AltDeque Int).shrink_to 10).cap <
      max 10 ((AltDeque.with_capacity 3 : AltDeque Int).shrink_to 10).len := by
  decide

/-- Claim C8 (amended): `len ≤ capacity` holds under the invariant, and
`shrink_to m` keeps the invariant and reaches capacity exactly `max(m, len)`
when `m < capacity`, while for `m ≥ capacity` it is a no-op (so the claimed
bound `capacity ≥ max(m, len)` only holds for `m ≤ capacity`). -/
theorem c8_shrink_to_amended {α : Type} (d : AltDeque α) (m : Nat) (h : d.Inv) :
    C8Prop d m := by
  obtain ⟨hI, hnoop, hcap⟩ := AltDeque.shrink_to_spec d m h
  have h1 := h.1
  have h2 := h.2
  have hlv : d.len = d.cap - d.tail + d.head := rfl
  exact ⟨by omega, hI, hcap, hnoop⟩

/-- Witness for the amended C8 at a concrete deque and bound. -/
theorem c8_shrink_to_amended_witness :
    (fromPair ([1, 2] : List Int) [3]).Inv ∧ C8Prop (fromPair ([1, 2] : List Int) [3]) 1 :=
  ⟨by decide, c8_shrink_to_amended _ 1 (by decide)⟩

/-- Claim C9: converting a `Vec` into an `AltDeque` and straight back yields
the original `Vec` (same elements, same order, same capacity); the deque
keeps the allocation (`cap = v.cap`) and its contents already form a single
contiguous run at offset 0 with an empty front stack (`tail = cap`), so the
back-conversion takes its no-copy branch. -/
theorem c9_vec_round_trip {α : Type} [Inhabited α] (v : Vec α)
    (h : v.elems.length ≤ v.cap) : C9Prop v := by
  obtain ⟨hI, hcap, hhead, htail, hfr, hbk, hlen⟩ := fromVec_spec v h
  refine ⟨?_, hcap, by rw [htail, hcap], hbk, hfr⟩
  have hnn : ¬((fromVec v).tail ≠ (fromVec v).cap) := by
    rw [htail, hcap]
    exact fun hx => hx rfl
  have he : toVec (fromVec v) =
      { elems := (fromVec v).buf.take (fromVec v).len, cap := (fromVec v).cap } := by
    simp only [toVec]
    rw [if_neg hnn]
  have htake : (fromVec v).buf.take (fromVec v).len = v.elems := by
    rw [hlen]
    show (v.elems ++ List.replicate (v.cap - v.elems.length) (default : α)).take
      v.elems.length = v.elems
    exact List.take_left' rfl
  rw [he, htake, hcap]

/-- Witness for C9 at a concrete vector. -/
theorem c9_vec_round_trip_witness :
    (⟨[1, 2], 3⟩ : Vec Int).elems.length ≤ (⟨[1, 2], 3⟩ : Vec Int).cap ∧
      C9Prop (⟨[1, 2], 3⟩ : Vec Int) :=
  ⟨by decide, c9_vec_round_trip _ (by decide)⟩

/-- Claim C10 (implicit): `fromVec` places every element in the back stack
(`head = len`, `tail = capacity`), so `as_slices` on the fresh conversion is
`([], v.elems)`, and the first `pop_front` on a non-empty conversion takes
the stack-flip branch -- the popped state has `head = 0` and
`tail = capacity - len + 1` -- while still popping the front element and
keeping the rest in order. -/
theorem c10_from_vec_flip {α : Type} [Inhabited α] (v : Vec α)
    (h : v.elems.length ≤ v.cap) : C10Prop v := by
  obtain ⟨hI, hcap, hhead, htail, hfr, hbk, hlen⟩ := fromVec_spec v h
  refine ⟨?_, hhead, htail, ?_⟩
  · simp only [AltDeque.as_slices]
    rw [hfr, hbk]
  · intro hne
    obtain ⟨hpI, hp1, hpt, hpc⟩ := AltDeque.pop_front_spec (fromVec v) hI
    have hTo : (fromVec v).toList = v.elems := by
      simp only [AltDeque.toList]
      rw [hfr, hbk, List.nil_append]
    have hc1 : ¬((fromVec v).tail ≠ (fromVec v).cap) := by
      rw [htail, hcap]
      exact fun hx => hx rfl
    have hc2 : (fromVec v).head ≠ 0 := by
      rw [hhead]
      exact fun h0 => hne (List.eq_nil_of_length_eq_zero h0)
    have he : (fromVec v).pop_front =
        (some (readBuf (copyBuf (fromVec v).buf 1
            ((fromVec v).cap - (fromVec v).head + 1) ((fromVec v).head - 1)) 0),
         { fromVec v with
            tail := (fromVec v).cap - (fromVec v).head + 1, head := 0,
            buf := (copyBuf (fromVec v).buf 1
              ((fromVec v).cap - (fromVec v).head + 1) ((fromVec v).head - 1)) }) := by
      simp only [AltDeque.pop_front]
      rw [if_neg hc1, if_pos hc2]
    refine ⟨?_, ?_, ?_, ?_⟩
    · rw [hp1, hTo]
    · rw [he]
    · rw [he]
      show (fromVec v).cap - (fromVec v).head + 1 = (fromVec v).cap - v.elems.length + 1
      rw [hhead]
    · rw [hpt, hTo]

/-- Witness for C10 at a concrete vector. -/
theorem c10_from_vec_flip_witness :
    (⟨[1, 2], 3⟩ : Vec Int).elems.length ≤ (⟨[1, 2], 3⟩ : Vec Int).cap ∧
      C10Prop (⟨[1, 2], 3⟩ : Vec Int) :=
  ⟨by decide, c10_from_vec_flip _ (by decide)⟩

end AltDequeSpec
